import Mathlib

/-!
Shallow embedding of the Mobility-and-Trust-Aware Scheduling Framework for
vehicular fog computing (VFC): fog-node trust/mobility/reliability model,
task/DAG management, and the baseline and proposed (adaptive) simulation
loops, together with theorems settling the specification claims.

Python floats are modelled by `ℚ` (the claims are algebraic relations on the
scores, not bit-level float facts); the logistic failure model, which uses
`math.exp`, is modelled over `ℝ`.  The seeded pseudo-random generator is
modelled as a stream of per-attempt success draws determined by the seed.
-/

namespace VFC

/-- Clamp a rational into `[0, 1]`, the Python idiom `min(max(x, 0.0), 1.0)`. -/
def clamp01 (x : ℚ) : ℚ := min (max x 0) 1

/-- `src/trust_manager.py` `update_trust`: add `inc` on success, subtract
`dec` on failure, and bound the result inside `[0, 1]`. -/
def update_trust (trust : ℚ) (success : Bool) (inc : ℚ := 1/20) (dec : ℚ := 1/10) : ℚ :=
  clamp01 (if success then trust + inc else trust - dec)

/-- The three discrete mobility states of `src/mobility_predictor.py`. -/
inductive MState where
  | slow
  | medium
  | fast
deriving DecidableEq, Repr

/-- `discretize_speed`: map a numeric speed to a discrete mobility state. -/
def discretize_speed (speed : ℚ) : MState :=
  if speed < 40 then .slow else if speed < 80 then .medium else .fast

/-- `TransitionModel`: transition probabilities between mobility states
(the 3×3 matrix together with its state index, curried). -/
def TransitionModel : Type := MState → MState → ℚ

/-- `TransitionModel.stay_probability`: probability of staying in SLOW or
MEDIUM given the current state, clamped into `[0, 1]`. -/
def stay_probability (tm : TransitionModel) (current_state : MState) : ℚ :=
  clamp01 (tm current_state .slow + tm current_state .medium)

/-- `src/fog_node.py` `FogNode` after `__post_init__` has run: a vehicle in
the fog network with its scores, transition model, counters and the saved
initial metrics used by `reset`. -/
structure FogNode where
  node_id : ℤ
  speed : ℚ
  trust_score : ℚ
  mobility_score : ℚ
  reliability_score : ℚ
  transition_model : TransitionModel
  social_trust : ℚ
  centrality : ℚ
  current_state : MState
  past_success : ℕ
  past_failure : ℕ
  initial_trust : ℚ
  initial_mobility : ℚ
  initial_reliability : ℚ
  successes : ℕ
  failures : ℕ

/-- Constructor arguments of the `FogNode` dataclass, before
`__post_init__`.  `current_state` is a `String` in the source with default
`"MEDIUM"`; `none` models the falsy empty string, `some s` a named state. -/
structure FogNodeArgs where
  node_id : ℤ
  speed : ℚ
  trust_score : ℚ
  mobility_score : ℚ
  reliability_score : ℚ
  transition_model : TransitionModel
  social_trust : ℚ
  centrality : ℚ
  current_state : Option MState := some .medium
  past_success : ℕ := 0
  past_failure : ℕ := 0

/-- `FogNode.compute_reliability`: set
`reliability = trust_weight*trust + mobility_weight*mobility` (defaults
0.5/0.5) and return it.  The source mutates `self`; here the updated node is
returned alongside the value. -/
def FogNode.compute_reliability (n : FogNode) (trust_weight : ℚ := 1/2)
    (mobility_weight : ℚ := 1/2) : FogNode × ℚ :=
  let r := trust_weight * n.trust_score + mobility_weight * n.mobility_score
  ({ n with reliability_score := r }, r)

/-- `FogNode.__post_init__`: clamp trust and mobility into `[0, 1]`,
overwrite `reliability_score` with `compute_reliability()`, record the
initial metrics, resolve `current_state` (falsy string → discretized speed)
and initialize the success/failure counters. -/
def mkFogNode (a : FogNodeArgs) : FogNode :=
  let trust := clamp01 a.trust_score
  let mobility := clamp01 a.mobility_score
  let reliability := (1/2 : ℚ) * trust + (1/2 : ℚ) * mobility
  { node_id := a.node_id
    speed := a.speed
    trust_score := trust
    mobility_score := mobility
    reliability_score := reliability
    transition_model := a.transition_model
    social_trust := a.social_trust
    centrality := a.centrality
    current_state := match a.current_state with
      | none => discretize_speed a.speed
      | some s => s
    past_success := a.past_success
    past_failure := a.past_failure
    initial_trust := trust
    initial_mobility := mobility
    initial_reliability := reliability
    successes := a.past_success
    failures := a.past_failure }

/-- `FogNode.compute_mobility_score`: update the mobility score from the
stored transition model and return it. -/
def FogNode.compute_mobility_score (n : FogNode) : FogNode × ℚ :=
  let m := stay_probability n.transition_model n.current_state
  ({ n with mobility_score := m }, m)

/-- `FogNode.update_trust`: update the trust score through the trust
manager, bump the success/failure counter, and recompute reliability. -/
def FogNode.update_trust (n : FogNode) (success : Bool) (inc : ℚ := 1/20)
    (dec : ℚ := 1/10) : FogNode :=
  let n := { n with trust_score := VFC.update_trust n.trust_score success inc dec }
  let n := if success then { n with successes := n.successes + 1 }
           else { n with failures := n.failures + 1 }
  (n.compute_reliability).1

/-- `FogNode.reset`: restore the node to its initial metrics. -/
def FogNode.reset (n : FogNode) : FogNode :=
  { n with trust_score := n.initial_trust
           mobility_score := n.initial_mobility
           reliability_score := n.initial_reliability
           current_state := discretize_speed n.speed
           successes := n.past_success
           failures := n.past_failure }

/-- Modelled from the spec: `FogNode.get_mobility_score` is called by
`scheduler_baseline.py` but absent from `src/fog_node.py`; per the spec the
baseline "ranks nodes once by mobility score", so it reads the stored
mobility score. -/
def FogNode.get_mobility_score (n : FogNode) : ℚ := n.mobility_score

/-- Modelled from the spec: `FogNode.get_reliability_score` is called by
`Simulator._calculate_failure_probability` but absent from
`src/fog_node.py`; the failure model is "reliability-based", so it reads the
stored reliability score. -/
def FogNode.get_reliability_score (n : FogNode) : ℚ := n.reliability_score

/-- Modelled from the spec: `FogNode.get_utility_score` is called by
`simulator.py` and `scheduler_proposed.py` but absent from
`src/fog_node.py`.  Per the spec the adaptive policy "recomputes mobility
and reliability … on every call and selects the argmax by current
reliability_score", so it recomputes both scores and returns the fresh
reliability. -/
def FogNode.get_utility_score (n : FogNode) : FogNode × ℚ :=
  ((n.compute_mobility_score).1.compute_reliability : FogNode × ℚ)

/-- Modelled from the spec: `FogNode.update_trust_on_success` is called by
`ProposedScheduler.update_node_trust` but absent from `src/fog_node.py`;
the scheduler documents "+0.10 on success", so it applies `update_trust`
with increment 0.10 (decrement profile 0.15). -/
def FogNode.update_trust_on_success (n : FogNode) : FogNode :=
  n.update_trust true (1/10) (3/20)

/-- Modelled from the spec: `FogNode.update_trust_on_failure` is called by
`ProposedScheduler.update_node_trust` but absent from `src/fog_node.py`;
the scheduler documents "-0.15 on failure", so it applies `update_trust`
with decrement 0.15 (increment profile 0.10). -/
def FogNode.update_trust_on_failure (n : FogNode) : FogNode :=
  n.update_trust false (1/10) (3/20)

/-- `src/task.py` `TaskStatus`. -/
inductive TaskStatus where
  | pending
  | running
  | completed
  | failed
deriving DecidableEq, Repr

/-- `src/task.py` `Task`: a computational task with dependencies, status and
retry bookkeeping. -/
structure Task where
  task_id : ℤ
  execution_time : ℚ
  dependencies : List ℤ
  status : TaskStatus := .pending
  assigned_node : Option ℤ := none
  start_time : Option ℚ := none
  finish_time : Option ℚ := none
  retry_count : ℕ := 0
  max_retries : ℕ := 2
deriving DecidableEq, Repr

/-- `Task.__init__` with its defaults (`deps=None` → `[]`, `max_retries=2`). -/
def mkTask (task_id : ℤ) (execution_time : ℚ) (deps : Option (List ℤ) := none)
    (max_retries : ℕ := 2) : Task :=
  { task_id := task_id
    execution_time := execution_time
    dependencies := deps.getD []
    max_retries := max_retries }

/-- `Task.is_ready`: all dependencies are members of `completed_tasks`. -/
def Task.is_ready (t : Task) (completed_tasks : List ℤ) : Bool :=
  t.dependencies.all (completed_tasks.contains ·)

/-- `Task.assign_to_node`: record the node and move to Running. -/
def Task.assign_to_node (t : Task) (node_id : ℤ) : Task :=
  { t with assigned_node := some node_id, status := .running }

/-- `Task.mark_completed`. -/
def Task.mark_completed (t : Task) (completion_time : ℚ) : Task :=
  { t with status := .completed, finish_time := some completion_time }

/-- `Task.mark_failed`. -/
def Task.mark_failed (t : Task) : Task :=
  { t with status := .failed }

/-- `Task.reset`: back to the initial state. -/
def Task.reset (t : Task) : Task :=
  { t with status := .pending, assigned_node := none, start_time := none,
           finish_time := none, retry_count := 0 }

/-- `Task.can_retry`. -/
def Task.can_retry (t : Task) : Bool :=
  t.retry_count < t.max_retries

/-- `Task.increment_retry`. -/
def Task.increment_retry (t : Task) : Task :=
  { t with retry_count := t.retry_count + 1 }

/-! ## DAG manager (`src/dag_manager.py`)

`DAGManager.tasks` is the insertion-ordered Python dict
`{task.task_id: task for task in tasks}`; it is modelled as a list of tasks
with unique ids: a repeated id keeps its first position but the later task
object, exactly as a dict comprehension does. -/

/-- One dict assignment `d[t.task_id] = t`. -/
def dictInsert (l : List Task) (t : Task) : List Task :=
  match l with
  | [] => [t]
  | x :: xs => if x.task_id == t.task_id then t :: xs else x :: dictInsert xs t

/-- The dict `{task.task_id: task for task in tasks}` as an ordered list. -/
def mkDagTasks (tasks : List Task) : List Task :=
  tasks.foldl dictInsert []

/-- `DAGManager.get_task`: `self.tasks.get(task_id)` — `none` when absent. -/
def get_task (dag : List Task) (task_id : ℤ) : Option Task :=
  dag.find? (fun t => t.task_id == task_id)

/-- `DAGManager.get_ready_tasks`: ids of Pending tasks whose dependencies
are all completed, in dict order. -/
def get_ready_tasks (dag : List Task) (completed_tasks : List ℤ) : List ℤ :=
  (dag.filter (fun t => t.status == .pending && t.is_ready completed_tasks)).map
    (·.task_id)

/-- `DAGManager.reset_all_tasks`. -/
def reset_all_tasks (dag : List Task) : List Task :=
  dag.map Task.reset

/-- Mutation of the task object stored under `task_id` (dict ids are
unique, so the positional map touches at most the one entry). -/
def dagUpdate (dag : List Task) (task_id : ℤ) (f : Task → Task) : List Task :=
  dag.map (fun t => if t.task_id == task_id then f t else t)

/-! ### Kahn's algorithm (`DAGManager.get_topological_order`)

`in_degree` and `graph` are Python dicts keyed by task id and only ever
read pointwise, so they are modelled as total functions.  The in-degree is
an `ℤ` because Python integers do not saturate at zero. -/

/-- Processing one edge `(dep, task)` of `buildGraph`'s double loop:
`graph[dep].append(task)` and `in_degree[task] += 1`. -/
def edgeStep (acc : (ℤ → List ℤ) × (ℤ → ℤ)) (e : ℤ × ℤ) : (ℤ → List ℤ) × (ℤ → ℤ) :=
  (fun v => if v == e.1 then acc.1 e.1 ++ [e.2] else acc.1 v,
   fun v => if v == e.2 then acc.2 e.2 + 1 else acc.2 v)

/-- Build the adjacency list and in-degree count: for each task, each
dependency present in the dict contributes one edge `dep → task`. -/
def buildGraph (dag : List Task) : (ℤ → List ℤ) × (ℤ → ℤ) :=
  dag.foldl
    (fun acc t =>
      t.dependencies.foldl
        (fun acc dep_id =>
          if dag.any (fun u => u.task_id == dep_id) then
            edgeStep acc (dep_id, t.task_id)
          else acc)
        acc)
    (fun _ => [], fun _ => 0)

/-- One `for neighbor in graph[current]:` iteration inside Kahn's loop:
decrement the neighbor's in-degree and enqueue it if it reached zero. -/
def kahnVisit (p : (ℤ → ℤ) × List ℤ) (neighbor : ℤ) : (ℤ → ℤ) × List ℤ :=
  let d := p.1 neighbor - 1
  (fun v => if v == neighbor then d else p.1 v,
   if d == 0 then p.2 ++ [neighbor] else p.2)

/-- The `while queue:` loop of Kahn's algorithm: pop the queue head, append
it to the result, decrement every successor's in-degree and enqueue those
reaching zero.  The source loop is unguarded; fuel only bounds the
recursion and the lemmas below show `|dag|` pops always empty the
queue, so with that fuel this is extensionally the source loop. -/
def kahnLoop (graph : ℤ → List ℤ) : ℕ → (ℤ → ℤ) → List ℤ → List ℤ →
    List ℤ × List ℤ × (ℤ → ℤ)
  | 0, in_degree, queue, result => (result, queue, in_degree)
  | fuel + 1, in_degree, queue, result =>
    match queue with
    | [] => (result, [], in_degree)
    | current :: rest =>
      let step := (graph current).foldl kahnVisit (in_degree, rest)
      kahnLoop graph fuel step.1 step.2 (result ++ [current])

/-- `DAGManager.get_topological_order`: Kahn's algorithm over the task
dict; tasks inside or behind a dependency cycle are absent from the
result. -/
def get_topological_order (dag : List Task) : List ℤ :=
  let ids := dag.map (·.task_id)
  let gi := buildGraph dag
  let queue := ids.filter (fun id => gi.2 id == 0)
  (kahnLoop gi.1 ids.length gi.2 queue []).1

/-! ## Schedulers -/

/-- Python's `max(xs, key=f)` (and the head of
`sorted(xs, key=f, reverse=True)`, which is a stable sort): the first
element attaining the maximal key; `none` on an empty sequence. -/
def firstMaxBy (key : FogNode → ℚ) : List FogNode → Option FogNode
  | [] => none
  | x :: xs => some (xs.foldl (fun cur y => if key y > key cur then y else cur) x)

/-- The body of `BaselineScheduler.schedule_tasks`'s
`for task_id in topological_order:` loop: if the task exists, record
`sorted_nodes[0]` (the first highest-mobility node) for it and mutate its
`assigned_node`; with an empty node list the subscript raises `IndexError`,
modelled as the `Except` error. -/
def sbAssign (nodes : List FogNode) (acc : List Task × List (ℤ × ℤ))
    (task_id : ℤ) : Except String (List Task × List (ℤ × ℤ)) :=
  match get_task acc.1 task_id with
  | none => .ok acc
  | some _ =>
    match firstMaxBy FogNode.get_mobility_score nodes with
    | none => .error "IndexError: list index out of range"
    | some best_node =>
      .ok (dagUpdate acc.1 task_id ({ · with assigned_node := some best_node.node_id }),
           acc.2 ++ [(task_id, best_node.node_id)])

/-- `BaselineScheduler.schedule_tasks`: every task of the topological order
is assigned the single highest-mobility node.  The tasks' `assigned_node`
fields are mutated as in the source. -/
def schedule_tasks_baseline (nodes : List FogNode) (dag : List Task) :
    Except String (List Task × List (ℤ × ℤ)) :=
  (get_topological_order dag).foldlM (sbAssign nodes) (dag, [])

/-- Lookup in the schedule dict (`schedule.get(task_id)`). -/
def scheduleGet (schedule : List (ℤ × ℤ)) (task_id : ℤ) : Option ℤ :=
  (schedule.find? (fun p => p.1 == task_id)).map (·.2)

/-- `ProposedScheduler.update_node_trust`: find the first node with the
given id and apply the documented +0.10 / −0.15 trust update; reliability
is recomputed inside the update. -/
def update_node_trust : List FogNode → ℤ → Bool → List FogNode
  | [], _, _ => []
  | n :: ns, node_id, success =>
    if n.node_id == node_id then
      (if success then n.update_trust_on_success else n.update_trust_on_failure) :: ns
    else n :: update_node_trust ns node_id success

/-! ## Simulation engine (`src/simulator.py`) -/

/-- One attempt record of the run trace: which task ran where, whether the
draw succeeded, and the simulated clock after the attempt. -/
structure Attempt where
  task_id : ℤ
  node_id : ℤ
  success : Bool
  time : ℚ
deriving DecidableEq, Repr

/-- The mutable state threaded through a per-trial loop. -/
structure SimState where
  dag : List Task
  nodes : List FogNode
  completed : List ℤ
  current_time : ℚ
  idx : ℕ
  log : List Attempt

/-- How a per-trial loop ended: the while-condition became false
(`allDone`), the ready set was empty (`stalled`), or the modelling fuel ran
out (`fuelOut`, proved unreachable below). -/
inductive ExitKind where
  | allDone
  | stalled
  | fuelOut
deriving DecidableEq, Repr

/-- `Simulator`: nodes, tasks and the deterministic seed. -/
structure Simulator where
  nodes : List FogNode
  tasks : List Task
  seed : ℤ := 42

/-- Membership-preserving model of `completed_tasks.add(task_id)`. -/
def setAdd (completed : List ℤ) (task_id : ℤ) : List ℤ :=
  if completed.contains task_id then completed else completed ++ [task_id]

/-- The body of `simulate_baseline`'s `for task_id in ready_tasks:` loop:
look the task up, and if it is still Pending and scheduled to an existing
node, run one attempt — assign, scale the execution time by the node speed,
consume one success draw, and mark Completed (advancing the clock) or
Failed. -/
def baselineStep (schedule : List (ℤ × ℤ)) (succ : ℕ → Bool) (st : SimState)
    (task_id : ℤ) : SimState :=
  match get_task st.dag task_id with
  | none => st
  | some task =>
    if task.status == .pending then
      match scheduleGet schedule task_id with
      | none => st
      | some node_id =>
        match st.nodes.find? (fun n => n.node_id == node_id) with
        | none => st
        | some node =>
          let dag₁ := dagUpdate st.dag task_id (Task.assign_to_node · node_id)
          let speed_factor : ℚ := 1 / (1 + node.speed / 100)
          let execution_time := task.execution_time * speed_factor
          let success := succ st.idx
          if success then
            let t' := st.current_time + execution_time
            { st with dag := dagUpdate dag₁ task_id (Task.mark_completed · t')
                      current_time := t'
                      completed := setAdd st.completed task_id
                      idx := st.idx + 1
                      log := st.log ++ [⟨task_id, node_id, true, t'⟩] }
          else
            { st with dag := dagUpdate dag₁ task_id Task.mark_failed
                      idx := st.idx + 1
                      log := st.log ++ [⟨task_id, node_id, false, st.current_time⟩] }
    else st

/-- The `while len(completed_tasks) < len(self.tasks):` loop of
`simulate_baseline`.  The source loop is unguarded; the fuel only bounds
the recursion and is proved never to run out. -/
def baselineLoop (schedule : List (ℤ × ℤ)) (succ : ℕ → Bool) (total : ℕ) :
    ℕ → SimState → SimState × ExitKind
  | 0, st => (st, .fuelOut)
  | fuel + 1, st =>
    if st.completed.length < total then
      let ready := get_ready_tasks st.dag st.completed
      if ready.isEmpty then (st, .stalled)
      else baselineLoop schedule succ total fuel (ready.foldl (baselineStep schedule succ) st)
    else (st, .allDone)

/-- `len([t for t in self.tasks if t.status == COMPLETED])`: the original
task list aliases the dict values, so the object observed at position `i`
is the dict entry exactly when `i` is the last occurrence of its id. -/
def completed_count (tasks : List Task) (dag : List Task) : ℕ :=
  (tasks.enum.map (fun p =>
    if (tasks.drop (p.1 + 1)).all (fun u => !(u.task_id == p.2.task_id)) then
      (get_task dag p.2.task_id).getD p.2
    else p.2)).countP (fun t => t.status == .completed)

/-- `Simulator.simulate_baseline`, with `stream seed i` modelling the `i`-th
value of `random.random() > failure_prob` after `random.seed(seed)` — one
uniform draw is consumed per attempt.  Returns the `(total_time,
completed_count, total_count)` tuple together with the final state and the
exit kind. -/
def simulate_baseline (stream : ℤ → ℕ → Bool) (sim : Simulator) :
    Except String ((ℚ × ℕ × ℕ) × SimState × ExitKind) :=
  let succ := stream sim.seed
  let dag₀ := reset_all_tasks (mkDagTasks sim.tasks)
  match schedule_tasks_baseline sim.nodes dag₀ with
  | .error e => .error e
  | .ok (dag₁, schedule) =>
    let st₀ : SimState := ⟨dag₁, sim.nodes, [], 0, 0, []⟩
    let r := baselineLoop schedule succ sim.tasks.length (10 * sim.tasks.length + 1) st₀
    .ok ((r.1.current_time, completed_count sim.tasks r.1.dag, sim.tasks.length), r)

/-- The body of `simulate_proposed`'s `for task_id in ready_tasks:` loop:
if the task is still Pending, `max(self.nodes, key=get_utility_score)`
recomputes every node's mobility and reliability and picks the first node
with maximal fresh reliability (`ValueError` on an empty node list), the
attempt runs as in the baseline, and the scheduler feeds the outcome back
through `update_node_trust`. -/
def proposedStep (succ : ℕ → Bool) (st : SimState) (task_id : ℤ) :
    Except String SimState :=
  match get_task st.dag task_id with
  | none => .ok st
  | some task =>
    if task.status == .pending then
      let nodes' := st.nodes.map (fun n => (n.get_utility_score).1)
      match firstMaxBy FogNode.get_reliability_score nodes' with
      | none => .error "ValueError: max() arg is an empty sequence"
      | some best_node =>
        let node_id := best_node.node_id
        let dag₁ := dagUpdate st.dag task_id (Task.assign_to_node · node_id)
        let speed_factor : ℚ := 1 / (1 + best_node.speed / 100)
        let execution_time := task.execution_time * speed_factor
        let success := succ st.idx
        if success then
          let t' := st.current_time + execution_time
          .ok { dag := dagUpdate dag₁ task_id (Task.mark_completed · t')
                nodes := update_node_trust nodes' node_id true
                completed := setAdd st.completed task_id
                current_time := t'
                idx := st.idx + 1
                log := st.log ++ [⟨task_id, node_id, true, t'⟩] }
        else
          .ok { dag := dagUpdate dag₁ task_id Task.mark_failed
                nodes := update_node_trust nodes' node_id false
                completed := st.completed
                current_time := st.current_time
                idx := st.idx + 1
                log := st.log ++ [⟨task_id, node_id, false, st.current_time⟩] }
    else .ok st

/-- The `while` loop of `simulate_proposed` (same shape as the baseline
loop, but node state evolves and an empty node registry surfaces as an
error). -/
def proposedLoop (succ : ℕ → Bool) (total : ℕ) :
    ℕ → SimState → Except String (SimState × ExitKind)
  | 0, st => .ok (st, .fuelOut)
  | fuel + 1, st =>
    if st.completed.length < total then
      let ready := get_ready_tasks st.dag st.completed
      if ready.isEmpty then .ok (st, .stalled)
      else do
        let st' ← ready.foldlM (proposedStep succ) st
        proposedLoop succ total fuel st'
    else .ok (st, .allDone)

/-- `Simulator.simulate_proposed`, instrumented like `simulate_baseline`. -/
def simulate_proposed (stream : ℤ → ℕ → Bool) (sim : Simulator) :
    Except String ((ℚ × ℕ × ℕ) × SimState × ExitKind) :=
  let succ := stream sim.seed
  let dag₀ := reset_all_tasks (mkDagTasks sim.tasks)
  let st₀ : SimState := ⟨dag₀, sim.nodes, [], 0, 0, []⟩
  match proposedLoop succ sim.tasks.length (10 * sim.tasks.length + 1) st₀ with
  | .error e => .error e
  | .ok r => .ok ((r.1.current_time, completed_count sim.tasks r.1.dag, sim.tasks.length), r)

/-- `Simulator._calculate_failure_probability` reads the node's (current)
reliability and applies the logistic failure model with the configured
steepness 3.0 and threshold 0.25; defined over `ℝ` below as
`failure_probability`. -/
noncomputable def calculate_failure_probability (node : FogNode) : ℝ :=
  max 0 (min 1 (1 / (1 + Real.exp (3 * ((node.get_reliability_score : ℝ) - 0.25)))))

/-- The logistic failure model as a function of reliability,
`1 / (1 + exp(steepness * (reliability - threshold)))` clamped into
`[0, 1]`, with the configured `steepness = 3.0`, `threshold = 0.25`. -/
noncomputable def failure_probability (reliability : ℝ) : ℝ :=
  max 0 (min 1 (1 / (1 + Real.exp (3 * (reliability - 0.25)))))

/-! ## Proof-side views of the embedding -/

/-- The dependency edges `(dep, task)` counted by `buildGraph`, in
processing order: for each task of the dict, each of its dependencies that
is itself a dict key contributes one edge. -/
def edgesOf (dag : List Task) : List (ℤ × ℤ) :=
  dag.flatMap (fun t =>
    (t.dependencies.filter (fun d => dag.any (fun u => u.task_id == d))).map
      (fun d => (d, t.task_id)))

/-- In-degree still owed to `v` by tasks not yet popped into `result`. -/
def remainingDeg (dag : List Task) (result : List ℤ) (v : ℤ) : ℕ :=
  (edgesOf dag).countP (fun e => e.2 == v && !(result.contains e.1))

/-- The invariant of Kahn's loop: popped-or-queued ids are distinct dict
keys, the running in-degree counts exactly the edges from unpopped
sources, every id whose in-degree reached zero has been queued or popped,
and queued/popped ids have in-degree zero. -/
def KahnInv (dag : List Task) (in_degree : ℤ → ℤ) (queue result : List ℤ) : Prop :=
  (result ++ queue).Nodup ∧
  (∀ v ∈ result ++ queue, v ∈ dag.map (·.task_id)) ∧
  (∀ v, in_degree v = (remainingDeg dag result v : ℤ)) ∧
  (∀ v ∈ dag.map (·.task_id), in_degree v = 0 → v ∈ result ++ queue) ∧
  (∀ v ∈ result ++ queue, in_degree v = 0)

/-- The invariant of the inner `for neighbor in graph[current]:` fold,
relative to the still-unprocessed suffix `s` of the successor list. -/
def KahnFoldInv (dag : List Task) (result : List ℤ) (s : List ℤ)
    (in_degree : ℤ → ℤ) (queue : List ℤ) : Prop :=
  (result ++ queue).Nodup ∧
  (∀ v ∈ result ++ queue, v ∈ dag.map (·.task_id)) ∧
  (∀ v, in_degree v = (remainingDeg dag result v : ℤ) + (s.count v : ℤ)) ∧
  (∀ v ∈ dag.map (·.task_id), in_degree v = 0 → v ∈ result ++ queue) ∧
  (∀ v ∈ result ++ queue, in_degree v = 0)

/-- How one engine step may change a task: the identifying and structural
fields (id, execution time, dependencies, retry bookkeeping) are
untouched, and a non-Pending task never becomes Pending again. -/
def StepRel (t u : Task) : Prop :=
  u.task_id = t.task_id ∧ u.execution_time = t.execution_time ∧
  u.dependencies = t.dependencies ∧ u.max_retries = t.max_retries ∧
  u.retry_count = t.retry_count ∧ (u.status = .pending → t.status = .pending)

/-- The ids of the still-Pending tasks: the loop's termination measure. -/
def pendingIds (dag : List Task) : List ℤ :=
  (dag.filter (fun t => t.status == .pending)).map (·.task_id)

/-- How `BaselineScheduler.schedule_tasks` may change a task: every field
except `assigned_node` is untouched. -/
def SameButAssigned (t u : Task) : Prop :=
  u.task_id = t.task_id ∧ u.execution_time = t.execution_time ∧
  u.dependencies = t.dependencies ∧ u.status = t.status ∧
  u.start_time = t.start_time ∧ u.finish_time = t.finish_time ∧
  u.retry_count = t.retry_count ∧ u.max_retries = t.max_retries

/-! ## Invariant predicates used by the claims -/

/-- The declared reliability invariant: `reliability_score` is the default
0.5/0.5 weighted combination of trust and mobility, and the trust score is
clamped into `[0, 1]`. -/
def ReliabilityInv (n : FogNode) : Prop :=
  n.reliability_score = 1/2 * n.trust_score + 1/2 * n.mobility_score ∧
  0 ≤ n.trust_score ∧ n.trust_score ≤ 1

/-- The saved initial metrics satisfy the reliability invariant (true of
every constructed node, and what `reset` restores). -/
def InitialsInv (n : FogNode) : Prop :=
  n.initial_reliability = 1/2 * n.initial_trust + 1/2 * n.initial_mobility ∧
  0 ≤ n.initial_trust ∧ n.initial_trust ≤ 1

/-! ## Concrete configurations for counterexamples and witnesses -/

/-- A concrete transition model: from MEDIUM the vehicle stays in
SLOW/MEDIUM with probability 0.9. -/
def tmEx : TransitionModel := fun s t =>
  match s, t with
  | .medium, .slow => 1/2
  | .medium, .medium => 2/5
  | .medium, .fast => 1/10
  | _, _ => 1/3

/-- Constructor arguments of a concrete fog node whose stored mobility
(0.2) differs from its transition model's stay probability (0.9). -/
def nodeArgsEx : FogNodeArgs :=
  { node_id := 1, speed := 50, trust_score := 1/2, mobility_score := 1/5,
    reliability_score := 99, transition_model := tmEx, social_trust := 1/2,
    centrality := 1/2 }

/-- The concrete fog node built from `nodeArgsEx`. -/
def nodeEx : FogNode := mkFogNode nodeArgsEx

/-- One node, one dependency-free task: the configuration on which a failed
attempt is observed. -/
def simC1 : Simulator := { nodes := [nodeEx], tasks := [mkTask 1 2], seed := 42 }

/-- A cyclic dependency graph (task 1 depends on 2 and 2 on 1). -/
def simC9 : Simulator :=
  { nodes := [nodeEx], tasks := [mkTask 1 2 (some [2]), mkTask 2 3 (some [1])],
    seed := 42 }

/-- A dependency referencing an unknown task id. -/
def simC9u : Simulator :=
  { nodes := [nodeEx], tasks := [mkTask 1 2 (some [7])], seed := 42 }

/-- An empty node registry with one runnable task. -/
def simC9b : Simulator := { nodes := [], tasks := [mkTask 1 2], seed := 42 }

/-- A three-task chain used as a witness configuration. -/
def simA : Simulator :=
  { nodes := [nodeEx],
    tasks := [mkTask 1 1, mkTask 2 1 (some [1]), mkTask 3 1 (some [2])], seed := 0 }

/-- A simulator with the same field values as `simC1`, written separately
(used to state determinism across syntactically distinct inputs). -/
def simD : Simulator := ⟨[mkFogNode nodeArgsEx], [mkTask 1 2], 42⟩

/-- The initial loop state of a proposed-policy trial over `simC1`. -/
def stC2 : SimState :=
  ⟨reset_all_tasks (mkDagTasks simC1.tasks), simC1.nodes, [], 0, 0, []⟩

/-! # Theorems -/

lemma clamp01_nonneg (x : ℚ) : 0 ≤ clamp01 x :=
  le_min (le_max_right x 0) zero_le_one

lemma clamp01_le_one (x : ℚ) : clamp01 x ≤ 1 :=
  min_le_right _ _

/-- `C10` — For every constructor input, a freshly constructed `FogNode`
has `trust_score` and `mobility_score` clamped into `[0,1]` and its
`reliability_score` overwritten with `0.5*trust + 0.5*mobility`; the
`reliability_score` passed by the caller never survives construction. -/
theorem claim10_construction_normalizes_scores :
    ∀ (a : FogNodeArgs) (r r' : ℚ),
      (mkFogNode a).trust_score = clamp01 a.trust_score ∧
      (mkFogNode a).mobility_score = clamp01 a.mobility_score ∧
      (0 ≤ (mkFogNode a).trust_score ∧ (mkFogNode a).trust_score ≤ 1) ∧
      (0 ≤ (mkFogNode a).mobility_score ∧ (mkFogNode a).mobility_score ≤ 1) ∧
      (mkFogNode a).reliability_score
        = 1/2 * clamp01 a.trust_score + 1/2 * clamp01 a.mobility_score ∧
      mkFogNode { a with reliability_score := r }
        = mkFogNode { a with reliability_score := r' } := by
  intro a r r'
  exact ⟨rfl, rfl, ⟨clamp01_nonneg _, clamp01_le_one _⟩,
         ⟨clamp01_nonneg _, clamp01_le_one _⟩, rfl, rfl⟩

/-- `C4` — `update_trust` adds `inc` on success and subtracts `dec` on
failure with the result clamped into `[0,1]`, increments the matching
counter, recomputes reliability, and any sequence of updates keeps trust
inside `[0,1]`. -/
theorem claim4_update_trust_bounded :
    ∀ (t inc dec : ℚ) (b : Bool) (n : FogNode) (L : List Bool),
      (L ≠ [] → 0 ≤ L.foldl (fun a s => update_trust a s inc dec) t ∧
                L.foldl (fun a s => update_trust a s inc dec) t ≤ 1) ∧
      update_trust t true inc dec = clamp01 (t + inc) ∧
      update_trust t false inc dec = clamp01 (t - dec) ∧
      (0 ≤ update_trust t b inc dec ∧ update_trust t b inc dec ≤ 1) ∧
      (n.update_trust b inc dec).trust_score = update_trust n.trust_score b inc dec ∧
      (n.update_trust true inc dec).successes = n.successes + 1 ∧
      (n.update_trust true inc dec).failures = n.failures ∧
      (n.update_trust false inc dec).failures = n.failures + 1 ∧
      (n.update_trust false inc dec).successes = n.successes ∧
      (n.update_trust b inc dec).reliability_score
        = 1/2 * update_trust n.trust_score b inc dec
          + 1/2 * n.mobility_score := by
  intro t inc dec b n L
  refine ⟨?_, rfl, rfl, ⟨clamp01_nonneg _, clamp01_le_one _⟩, ?_, ?_, ?_, ?_, ?_, ?_⟩
  · intro hL
    rcases (List.eq_nil_or_concat L) with h | ⟨L', s, rfl⟩
    · exact absurd h hL
    · rw [List.concat_eq_append, List.foldl_append]
      exact ⟨clamp01_nonneg _, clamp01_le_one _⟩
  · cases b <;> rfl
  · rfl
  · rfl
  · rfl
  · rfl
  · cases b <;> rfl

/-- Closed instance of the sequence part of `C4`. -/
theorem claim4_witness :
    0 ≤ [true, true, true].foldl (fun a s => update_trust a s (1/20) (1/10)) 2 ∧
    [true, true, true].foldl (fun a s => update_trust a s (1/20) (1/10)) 2 ≤ 1 :=
  (claim4_update_trust_bounded 2 (1/20) (1/10) true nodeEx [true, true, true]).1
    (by decide)

/-- `C3` refuted as stated: after `compute_mobility_score` the stored
reliability of the concrete node `nodeEx` no longer equals
`0.5*trust + 0.5*mobility` (the method updates mobility without
recomputing reliability). -/
theorem claim3_counterexample :
    (nodeEx.compute_mobility_score).1.reliability_score ≠
      1/2 * (nodeEx.compute_mobility_score).1.trust_score
        + 1/2 * (nodeEx.compute_mobility_score).1.mobility_score := by
  norm_num [nodeEx, nodeArgsEx, mkFogNode, FogNode.compute_mobility_score,
    stay_probability, tmEx, clamp01]

/-- `C3` amended — the invariant `reliability = 0.5*trust + 0.5*mobility ∧
trust ∈ [0,1]` holds after construction and after every `update_trust`,
and `reset` restores it from the (always well-formed) initial metrics;
`compute_mobility_score` leaves trust (and the initial metrics) intact but
can leave the stored reliability stale until the next recompute. -/
theorem claim3_invariant_amended :
    ∀ (a : FogNodeArgs) (n : FogNode) (b : Bool) (inc dec : ℚ),
      ReliabilityInv (mkFogNode a) ∧
      InitialsInv (mkFogNode a) ∧
      ReliabilityInv (n.update_trust b inc dec) ∧
      (InitialsInv n → ReliabilityInv n.reset) ∧
      (InitialsInv n → InitialsInv (n.update_trust b inc dec) ∧
                       InitialsInv n.reset ∧
                       InitialsInv (n.compute_mobility_score).1) ∧
      (n.compute_mobility_score).1.trust_score = n.trust_score ∧
      (n.compute_mobility_score).1.reliability_score = n.reliability_score := by
  intro a n b inc dec
  refine ⟨⟨rfl, clamp01_nonneg _, clamp01_le_one _⟩,
          ⟨rfl, clamp01_nonneg _, clamp01_le_one _⟩,
          ?_, ?_, ?_, rfl, rfl⟩
  · cases b <;> exact ⟨rfl, clamp01_nonneg _, clamp01_le_one _⟩
  · rintro ⟨h1, h2, h3⟩
    exact ⟨h1, h2, h3⟩
  · rintro ⟨h1, h2, h3⟩
    refine ⟨?_, ⟨h1, h2, h3⟩, ⟨h1, h2, h3⟩⟩
    cases b <;> exact ⟨h1, h2, h3⟩

/-- Closed instance of the hypothesis-carrying parts of the amended `C3`. -/
theorem claim3_witness :
    InitialsInv nodeEx ∧ ReliabilityInv nodeEx.reset :=
  ⟨(claim3_invariant_amended nodeArgsEx nodeEx true (1/20) (1/10)).2.1,
   (claim3_invariant_amended nodeArgsEx nodeEx true (1/20) (1/10)).2.2.2.1
     (claim3_invariant_amended nodeArgsEx nodeEx true (1/20) (1/10)).2.1⟩

/-- `C8` refuted as stated: querying the task graph of `simC1` for the
absent id 2 silently returns `none` — no "task not found" error is
signalled. -/
theorem claim8_counterexample :
    get_task (mkDagTasks simC1.tasks) 2 = none := rfl

/-- `C8` amended — `get_task` returns `none` for an unknown task id
(silently, mirroring `dict.get`), and any `some` answer is a stored task
with the queried id. -/
theorem claim8_get_task_amended :
    ∀ (dag : List Task) (task_id : ℤ),
      ((∀ t ∈ dag, t.task_id ≠ task_id) → get_task dag task_id = none) ∧
      (∀ t, get_task dag task_id = some t → t ∈ dag ∧ t.task_id = task_id) := by
  intro dag task_id
  constructor
  · intro h
    refine List.find?_eq_none.mpr ?_
    intro t ht
    simpa using h t ht
  · intro t ht
    refine ⟨List.mem_of_find?_eq_some ht, ?_⟩
    have := List.find?_some ht
    simpa using this

/-- Closed instance of the amended `C8`. -/
theorem claim8_witness :
    get_task (mkDagTasks simC1.tasks) 5 = none :=
  (claim8_get_task_amended (mkDagTasks simC1.tasks) 5).1
    (by simp [mkDagTasks, simC1, mkTask, dictInsert])

lemma logistic_mem_Icc (y : ℝ) : 0 ≤ 1 / (1 + Real.exp y) ∧ 1 / (1 + Real.exp y) ≤ 1 := by
  have h : (0 : ℝ) < 1 + Real.exp y := by positivity
  constructor
  · positivity
  · rw [div_le_one h]
    have := Real.exp_pos y
    linarith

lemma failure_probability_eq (r : ℝ) :
    failure_probability r = 1 / (1 + Real.exp (3 * (r - 0.25))) := by
  obtain ⟨h0, h1⟩ := logistic_mem_Icc (3 * (r - 0.25))
  rw [failure_probability, min_eq_right h1, max_eq_right h0]

/-- `C5` — the failure model is the logistic
`1 / (1 + exp(slope * (reliability - midpoint)))` with the configured
positive slope 3.0 and midpoint 0.25 (the `[0,1]` clamp in the source is
the identity on it), it is strictly decreasing in reliability, and the
node-level `_calculate_failure_probability` applies it to the node's
reliability score. -/
theorem claim5_failure_model :
    (∀ r : ℝ, failure_probability r = 1 / (1 + Real.exp (3 * (r - 0.25)))) ∧
    (∀ r₁ r₂ : ℝ, r₁ < r₂ → failure_probability r₂ < failure_probability r₁) ∧
    (∀ node : FogNode,
      calculate_failure_probability node
        = failure_probability (node.get_reliability_score : ℝ)) := by
  refine ⟨failure_probability_eq, ?_, fun _ => rfl⟩
  intro r₁ r₂ h
  rw [failure_probability_eq, failure_probability_eq]
  have hexp : Real.exp (3 * (r₁ - 0.25)) < Real.exp (3 * (r₂ - 0.25)) := by
    apply Real.exp_lt_exp.mpr
    linarith
  have h₁ : (0 : ℝ) < 1 + Real.exp (3 * (r₁ - 0.25)) := by positivity
  apply one_div_lt_one_div_of_lt h₁
  linarith

/-- Closed instance of `C5`: with the configured slope and midpoint,
`failure_probability(0.1) > failure_probability(0.9)`. -/
theorem claim5_witness :
    (0.1 : ℝ) < 0.9 ∧ failure_probability 0.9 < failure_probability 0.1 :=
  ⟨by norm_num, claim5_failure_model.2.1 0.1 0.9 (by norm_num)⟩

/-- `C7` — two runs from identical seed, identical node states, identical
task set and the same policy produce identical complete results (output
tuple, final task and node states, and the full attempt log). -/
theorem claim7_determinism :
    ∀ (stream : ℤ → ℕ → Bool) (s₁ s₂ : Simulator),
      s₁.seed = s₂.seed → s₁.nodes = s₂.nodes → s₁.tasks = s₂.tasks →
      simulate_baseline stream s₁ = simulate_baseline stream s₂ ∧
      simulate_proposed stream s₁ = simulate_proposed stream s₂ := by
  intro stream s₁ s₂ h1 h2 h3
  obtain ⟨n₁, t₁, e₁⟩ := s₁
  obtain ⟨n₂, t₂, e₂⟩ := s₂
  dsimp only at h1 h2 h3
  subst h1; subst h2; subst h3
  exact ⟨rfl, rfl⟩

/-- Closed instance of `C7` on the syntactically distinct but fieldwise
equal simulators `simD` and `simC1`. -/
theorem claim7_witness :
    simulate_baseline (fun _ _ => false) simD
      = simulate_baseline (fun _ _ => false) simC1 ∧
    simulate_proposed (fun _ _ => false) simD
      = simulate_proposed (fun _ _ => false) simC1 :=
  claim7_determinism (fun _ _ => false) simD simC1 rfl rfl rfl

lemma foldl_pickMax_spec (key : FogNode → ℚ) :
    ∀ (xs : List FogNode) (x : FogNode),
      (xs.foldl (fun cur y => if key y > key cur then y else cur) x) ∈ x :: xs ∧
      ∀ m ∈ x :: xs,
        key m ≤ key (xs.foldl (fun cur y => if key y > key cur then y else cur) x) := by
  intro xs
  induction xs with
  | nil =>
    intro x
    refine ⟨List.mem_singleton_self x, ?_⟩
    intro m hm
    rw [List.mem_singleton] at hm
    subst hm
    exact le_refl _
  | cons y ys ih =>
    intro x
    have hstep : (y :: ys).foldl (fun cur z => if key z > key cur then z else cur) x
        = ys.foldl (fun cur z => if key z > key cur then z else cur)
            (if key y > key x then y else x) := by
      rw [List.foldl_cons]
    obtain ⟨hmem, hle⟩ := ih (if key y > key x then y else x)
    constructor
    · rw [hstep]
      rcases List.mem_cons.mp hmem with h | h
      · rw [h]
        split <;> simp
      · exact List.mem_cons_of_mem _ (List.mem_cons_of_mem _ h)
    · intro m hm
      rw [hstep]
      have hself := hle _ (List.mem_cons_self _ _)
      rcases List.mem_cons.mp hm with h | h
      · subst h
        refine le_trans ?_ hself
        split
        · exact le_of_lt (by assumption)
        · exact le_refl _
      · rcases List.mem_cons.mp h with h' | h'
        · subst h'
          refine le_trans ?_ hself
          split
          · exact le_refl _
          · exact le_of_not_lt (by assumption)
        · exact hle _ (List.mem_cons_of_mem _ h')

lemma firstMaxBy_spec (key : FogNode → ℚ) (nodes : List FogNode) (h : nodes ≠ []) :
    ∃ best, firstMaxBy key nodes = some best ∧ best ∈ nodes ∧
      ∀ m ∈ nodes, key m ≤ key best := by
  cases nodes with
  | nil => exact absurd rfl h
  | cons x xs =>
    obtain ⟨hmem, hle⟩ := foldl_pickMax_spec key xs x
    exact ⟨_, rfl, hmem, hle⟩

/-- `C2` — the adaptive policy's selection recomputes mobility and
reliability from live node state on every call (`get_utility_score` leaves
trust intact, refreshes mobility from the transition model and reliability
as their 0.5/0.5 combination) and picks a node of maximal current
reliability; the feedback hook rewrites the selected node through
`FogNode.update_trust` (+0.10 / −0.15); and `proposedStep` performs the
selection and feedback on every attempt, so a later selection in the same
trial sees the updated trust. -/
theorem claim2_adaptive_policy :
    (∀ n : FogNode,
       (n.get_utility_score).1.mobility_score
           = stay_probability n.transition_model n.current_state ∧
       (n.get_utility_score).1.trust_score = n.trust_score ∧
       (n.get_utility_score).1.reliability_score
           = 1/2 * n.trust_score
             + 1/2 * stay_probability n.transition_model n.current_state) ∧
    (∀ nodes : List FogNode, nodes ≠ [] →
       ∃ best, firstMaxBy FogNode.get_reliability_score
                 (nodes.map fun n => (n.get_utility_score).1) = some best ∧
               best ∈ (nodes.map fun n => (n.get_utility_score).1) ∧
               ∀ m ∈ (nodes.map fun n => (n.get_utility_score).1),
                 m.reliability_score ≤ best.reliability_score) ∧
    (∀ (pre post : List FogNode) (n : FogNode) (node_id : ℤ) (success : Bool),
       (∀ m ∈ pre, m.node_id ≠ node_id) → n.node_id = node_id →
       update_node_trust (pre ++ n :: post) node_id success
         = pre ++ (n.update_trust success (1/10) (3/20)) :: post) ∧
    (∀ (succ : ℕ → Bool) (st : SimState) (task_id : ℤ) (task : Task)
       (best : FogNode),
       get_task st.dag task_id = some task → task.status = .pending →
       firstMaxBy FogNode.get_reliability_score
         (st.nodes.map fun n => (n.get_utility_score).1) = some best →
       ∃ st', proposedStep succ st task_id = .ok st' ∧
              st'.nodes = update_node_trust
                (st.nodes.map fun n => (n.get_utility_score).1) best.node_id
                (succ st.idx) ∧
              st'.log = st.log
                ++ [⟨task_id, best.node_id, succ st.idx, st'.current_time⟩]) := by
  refine ⟨?_, ?_, ?_, ?_⟩
  · intro n
    exact ⟨rfl, rfl, rfl⟩
  · intro nodes h
    exact firstMaxBy_spec _ _ (by simpa using h)
  · intro pre post n node_id success hpre hn
    induction pre with
    | nil =>
      have : (n.node_id == node_id) = true := by simpa using hn
      cases success <;>
        simp [update_node_trust, this, FogNode.update_trust_on_success,
          FogNode.update_trust_on_failure]
    | cons m pre ih =>
      have hm : (m.node_id == node_id) = false := by
        simpa using hpre m (List.mem_cons_self _ _)
      simp only [List.cons_append, update_node_trust, hm, Bool.false_eq_true,
        if_false, List.cons.injEq, true_and]
      exact ih fun x hx => hpre x (List.mem_cons_of_mem _ hx)
  · intro succ st task_id task best hget hstatus hmax
    have hp : (task.status == TaskStatus.pending) = true := by
      simpa using congrArg (· == TaskStatus.pending) hstatus
    simp only [proposedStep, hget, hp, if_true, hmax]
    cases hs : succ st.idx <;> exact ⟨_, rfl, rfl, rfl⟩

/-- Closed instance of `C2` on the one-node, one-task configuration. -/
theorem claim2_witness :
    ∃ best st',
      firstMaxBy FogNode.get_reliability_score
        (stC2.nodes.map fun n => (n.get_utility_score).1) = some best ∧
      proposedStep (fun _ => false) stC2 1 = .ok st' ∧
      st'.nodes = update_node_trust
        (stC2.nodes.map fun n => (n.get_utility_score).1) best.node_id false := by
  obtain ⟨best, hmax, -, -⟩ :=
    claim2_adaptive_policy.2.1 stC2.nodes (by simp [stC2, simC1])
  obtain ⟨st', hstep, hnodes, -⟩ :=
    claim2_adaptive_policy.2.2.2 (fun _ => false) stC2 1 (Task.reset (mkTask 1 2))
      best rfl rfl hmax
  exact ⟨best, st', hmax, hstep, hnodes⟩

/-! ### Kahn's algorithm: characterization and completeness -/

lemma countP_split {α : Type} (l : List α) (p q : α → Bool) :
    l.countP p = l.countP (fun a => p a && q a) + l.countP (fun a => p a && !q a) := by
  induction l with
  | nil => simp
  | cons a l ih =>
    simp only [List.countP_cons, ih]
    cases hp : p a <;> cases hq : q a <;> simp [hp, hq] <;> omega

lemma foldl_dep_filter (c : ℤ) (p : ℤ → Bool) :
    ∀ (deps : List ℤ) (acc : (ℤ → List ℤ) × (ℤ → ℤ)),
      deps.foldl (fun a d => if p d then edgeStep a (d, c) else a) acc
        = ((deps.filter p).map (fun d => (d, c))).foldl edgeStep acc := by
  intro deps
  induction deps with
  | nil => intro acc; rfl
  | cons d ds ih =>
    intro acc
    by_cases h : p d <;> simp [h, ih]

lemma buildGraph_eq (dag : List Task) :
    buildGraph dag = (edgesOf dag).foldl edgeStep (fun _ => [], fun _ => 0) := by
  rw [buildGraph, edgesOf]
  suffices h : ∀ (ts : List Task) (acc : (ℤ → List ℤ) × (ℤ → ℤ)),
      ts.foldl
        (fun acc t =>
          t.dependencies.foldl
            (fun acc dep_id =>
              if dag.any (fun u => u.task_id == dep_id) then
                edgeStep acc (dep_id, t.task_id)
              else acc)
            acc)
        acc
        = (ts.flatMap (fun t =>
            (t.dependencies.filter (fun d => dag.any (fun u => u.task_id == d))).map
              (fun d => (d, t.task_id)))).foldl edgeStep acc by
    exact h dag _
  intro ts
  induction ts with
  | nil => intro acc; rfl
  | cons t ts ih =>
    intro acc
    rw [List.foldl_cons, List.flatMap_cons, List.foldl_append,
      foldl_dep_filter t.task_id _ t.dependencies acc, ih]

lemma foldl_edgeStep_snd :
    ∀ (L : List (ℤ × ℤ)) (acc : (ℤ → List ℤ) × (ℤ → ℤ)) (v : ℤ),
      (L.foldl edgeStep acc).2 v
        = acc.2 v + (L.countP (fun e => e.2 == v) : ℤ) := by
  intro L
  induction L with
  | nil => intro acc v; simp
  | cons e L ih =>
    intro acc v
    rw [List.foldl_cons, ih, List.countP_cons]
    by_cases h : e.2 = v
    · subst h
      simp only [edgeStep, beq_self_eq_true, if_true]
      push_cast
      ring
    · have h1 : (v == e.2) = false := beq_eq_false_iff_ne.mpr (fun hc => h hc.symm)
      have h2 : (e.2 == v) = false := beq_eq_false_iff_ne.mpr h
      simp only [edgeStep, h1, h2, Bool.false_eq_true, if_false]
      simp

lemma foldl_edgeStep_fst :
    ∀ (L : List (ℤ × ℤ)) (acc : (ℤ → List ℤ) × (ℤ → ℤ)) (v : ℤ),
      (L.foldl edgeStep acc).1 v
        = acc.1 v ++ (L.filter (fun e => e.1 == v)).map (·.2) := by
  intro L
  induction L with
  | nil => intro acc v; simp
  | cons e L ih =>
    intro acc v
    rw [List.foldl_cons, ih, List.filter_cons]
    by_cases h : e.1 = v
    · subst h
      simp only [edgeStep, beq_self_eq_true, if_true, List.map_cons]
      rw [List.append_assoc]
      rfl
    · have h1 : (v == e.1) = false := beq_eq_false_iff_ne.mpr (fun hc => h hc.symm)
      have h2 : (e.1 == v) = false := beq_eq_false_iff_ne.mpr h
      simp only [edgeStep, h1, h2, Bool.false_eq_true, if_false]

lemma buildGraph_snd (dag : List Task) (v : ℤ) :
    (buildGraph dag).2 v = ((edgesOf dag).countP (fun e => e.2 == v) : ℤ) := by
  rw [buildGraph_eq, foldl_edgeStep_snd]
  simp

lemma buildGraph_fst (dag : List Task) (v : ℤ) :
    (buildGraph dag).1 v = ((edgesOf dag).filter (fun e => e.1 == v)).map (·.2) := by
  rw [buildGraph_eq, foldl_edgeStep_fst]
  simp

lemma mem_edgesOf {dag : List Task} {e : ℤ × ℤ} (h : e ∈ edgesOf dag) :
    ∃ t ∈ dag, t.task_id = e.2 ∧ e.1 ∈ t.dependencies ∧
      e.1 ∈ dag.map (·.task_id) := by
  rw [edgesOf, List.mem_flatMap] at h
  obtain ⟨t, ht, hmem⟩ := h
  rw [List.mem_map] at hmem
  obtain ⟨d, hd, he⟩ := hmem
  rw [List.mem_filter] at hd
  obtain ⟨hd1, hd2⟩ := hd
  rw [List.any_eq_true] at hd2
  obtain ⟨u, hu, hub⟩ := hd2
  refine ⟨t, ht, ?_, ?_, ?_⟩
  · rw [← he]
  · rw [← he]; exact hd1
  · rw [List.mem_map]
    exact ⟨u, hu, by rw [← he]; simpa using hub⟩

lemma edgesOf_target_mem {dag : List Task} {e : ℤ × ℤ} (h : e ∈ edgesOf dag) :
    e.2 ∈ dag.map (·.task_id) := by
  obtain ⟨t, ht, hid, -, -⟩ := mem_edgesOf h
  rw [List.mem_map]
  exact ⟨t, ht, hid⟩


lemma count_cons_self_int (v : ℤ) (l : List ℤ) : (v :: l).count v = l.count v + 1 := by
  rw [List.count_cons]
  simp

lemma count_cons_ne_int {v v0 : ℤ} (h : v ≠ v0) (l : List ℤ) :
    (v0 :: l).count v = l.count v := by
  rw [List.count_cons]
  have hb : (v0 == v) = false := beq_eq_false_iff_ne.mpr (fun hc => h hc.symm)
  simp [hb]

lemma kahnVisit_fold (dag : List Task) (result : List ℤ) :
    ∀ (s : List ℤ) (ind : ℤ → ℤ) (q : List ℤ),
      (∀ v ∈ s, v ∈ dag.map (·.task_id)) →
      KahnFoldInv dag result s ind q →
      KahnFoldInv dag result [] (s.foldl kahnVisit (ind, q)).1
        (s.foldl kahnVisit (ind, q)).2 := by
  intro s
  induction s with
  | nil => intro ind q _ hinv; exact hinv
  | cons v0 rest ih =>
    intro ind q hs hinv
    obtain ⟨hnd, hsub, hcnt, hzm, hmz⟩ := hinv
    have hv0ids : v0 ∈ dag.map (·.task_id) := hs v0 (List.mem_cons_self _ _)
    have hrest : ∀ v ∈ rest, v ∈ dag.map (·.task_id) :=
      fun v hv => hs v (List.mem_cons_of_mem _ hv)
    have hcv0 : ind v0
        = (remainingDeg dag result v0 : ℤ) + (rest.count v0 : ℤ) + 1 := by
      rw [hcnt v0, count_cons_self_int]
      push_cast
      ring
    have hv0notmem : v0 ∉ result ++ q := by
      intro hmem
      have h0 : ind v0 = 0 := hmz v0 hmem
      rw [hcv0] at h0
      have h1 : (0 : ℤ) ≤ (remainingDeg dag result v0 : ℤ) := Int.natCast_nonneg _
      have h2 : (0 : ℤ) ≤ (rest.count v0 : ℤ) := Int.natCast_nonneg _
      omega
    have hind0 : (kahnVisit (ind, q) v0).1 v0 = ind v0 - 1 := by
      show (if (v0 == v0) = true then ind v0 - 1 else ind v0) = ind v0 - 1
      simp
    have hindne : ∀ v, v ≠ v0 → (kahnVisit (ind, q) v0).1 v = ind v := by
      intro v hv
      have hb : (v == v0) = false := beq_eq_false_iff_ne.mpr hv
      show (if (v == v0) = true then ind v0 - 1 else ind v) = ind v
      rw [hb]
      simp
    have hcnt' : ∀ v, (kahnVisit (ind, q) v0).1 v
        = (remainingDeg dag result v : ℤ) + (rest.count v : ℤ) := by
      intro v
      by_cases hvv : v = v0
      · subst hvv
        rw [hind0]
        omega
      · rw [hindne v hvv, hcnt v, count_cons_ne_int hvv]
    rw [List.foldl_cons]
    by_cases hd : ind v0 - 1 = 0
    · have hq' : (kahnVisit (ind, q) v0).2 = q ++ [v0] := by
        show (if ((ind v0 - 1) == 0) = true then q ++ [v0] else q) = q ++ [v0]
        simp [hd]
      refine ih (kahnVisit (ind, q) v0).1 (kahnVisit (ind, q) v0).2 hrest ?_
      rw [hq']
      refine ⟨?_, ?_, hcnt', ?_, ?_⟩
      · rw [← List.append_assoc, List.nodup_append]
        refine ⟨hnd, List.nodup_singleton _, ?_⟩
        intro a ha hb
        rw [List.mem_singleton] at hb
        subst hb
        exact hv0notmem ha
      · intro v hv
        rw [← List.append_assoc, List.mem_append] at hv
        rcases hv with hv | hv
        · exact hsub v hv
        · rw [List.mem_singleton] at hv
          subst hv
          exact hv0ids
      · intro v hvids hv0
        by_cases hvv : v = v0
        · subst hvv
          rw [← List.append_assoc, List.mem_append, List.mem_singleton]
          exact Or.inr rfl
        · rw [hindne v hvv] at hv0
          have := hzm v hvids hv0
          rw [← List.append_assoc, List.mem_append]
          rw [List.mem_append] at this
          rcases this with h | h
          · exact Or.inl (List.mem_append_left _ h)
          · exact Or.inl (List.mem_append_right _ h)
      · intro v hv
        rw [← List.append_assoc, List.mem_append, List.mem_singleton] at hv
        rcases hv with hv | hv
        · have hvv : v ≠ v0 := fun hc => hv0notmem (hc ▸ hv)
          rw [hindne v hvv]
          exact hmz v hv
        · subst hv
          rw [hind0]
          exact hd
    · have hq' : (kahnVisit (ind, q) v0).2 = q := by
        have hb : ((ind v0 - 1) == 0) = false := beq_eq_false_iff_ne.mpr hd
        show (if ((ind v0 - 1) == 0) = true then q ++ [v0] else q) = q
        rw [hb]
        simp
      refine ih (kahnVisit (ind, q) v0).1 (kahnVisit (ind, q) v0).2 hrest ?_
      rw [hq']
      refine ⟨hnd, hsub, hcnt', ?_, ?_⟩
      · intro v hvids hv0
        by_cases hvv : v = v0
        · subst hvv
          rw [hind0] at hv0
          exact absurd hv0 hd
        · rw [hindne v hvv] at hv0
          exact hzm v hvids hv0
      · intro v hv
        have hvv : v ≠ v0 := fun hc => hv0notmem (hc ▸ hv)
        rw [hindne v hvv]
        exact hmz v hv


lemma succ_count_eq (dag : List Task) (c v : ℤ) :
    (((edgesOf dag).filter (fun e => e.1 == c)).map (·.2)).count v
      = (edgesOf dag).countP (fun e => e.2 == v && e.1 == c) := by
  rw [List.count_eq_countP, List.countP_map, List.countP_filter]
  rfl

lemma remainingDeg_split (dag : List Task) (result : List ℤ) (c v : ℤ)
    (hc : c ∉ result) :
    remainingDeg dag result v
      = (edgesOf dag).countP (fun e => e.2 == v && e.1 == c)
        + remainingDeg dag (result ++ [c]) v := by
  rw [remainingDeg, countP_split ((edgesOf dag))
    (fun e => e.2 == v && !(result.contains e.1)) (fun e => e.1 == c)]
  congr 1
  · apply List.countP_congr
    intro e _
    simp only [Bool.and_eq_true, Bool.not_eq_true', beq_iff_eq]
    constructor
    · rintro ⟨⟨h1, -⟩, h3⟩
      exact ⟨h1, h3⟩
    · rintro ⟨h1, h3⟩
      refine ⟨⟨h1, ?_⟩, h3⟩
      subst h3
      rw [← Bool.not_eq_true]
      intro hcon
      exact hc (List.elem_iff.mp hcon)
  · rw [remainingDeg]
    apply List.countP_congr
    intro e _
    simp only [Bool.and_eq_true, Bool.not_eq_true', beq_iff_eq, Bool.not_eq_true]
    constructor
    · rintro ⟨⟨h1, h2⟩, h3⟩
      refine ⟨h1, ?_⟩
      rw [← Bool.not_eq_true]
      intro hcon
      have : e.1 ∈ result ++ [c] := List.elem_iff.mp hcon
      rw [List.mem_append, List.mem_singleton] at this
      rcases this with h | h
      · rw [← Bool.not_eq_true] at h2
        exact h2 (List.elem_iff.mpr h)
      · rw [beq_eq_false_iff_ne] at h3
        exact h3 h
    · rintro ⟨h1, h2⟩
      rw [← Bool.not_eq_true] at h2
      refine ⟨⟨h1, ?_⟩, ?_⟩
      · rw [← Bool.not_eq_true]
        intro hcon
        exact h2 (List.elem_iff.mpr
          (List.mem_append_left _ (List.elem_iff.mp hcon)))
      · rw [beq_eq_false_iff_ne]
        intro hcon
        subst hcon
        exact h2 (List.elem_iff.mpr
          (List.mem_append_right _ (List.mem_singleton_self _)))

lemma succ_subset_ids (dag : List Task) (c : ℤ) :
    ∀ v ∈ ((edgesOf dag).filter (fun e => e.1 == c)).map (·.2),
      v ∈ dag.map (·.task_id) := by
  intro v hv
  rw [List.mem_map] at hv
  obtain ⟨e, he, hev⟩ := hv
  rw [List.mem_filter] at he
  exact hev ▸ edgesOf_target_mem he.1

lemma kahnLoop_spec (dag : List Task) :
    ∀ (fuel : ℕ) (ind : ℤ → ℤ) (queue result : List ℤ),
      KahnInv dag ind queue result →
      (dag.map (·.task_id)).length ≤ fuel + result.length →
      ∃ res indf,
        kahnLoop (buildGraph dag).1 fuel ind queue result = (res, [], indf) ∧
        KahnInv dag indf [] res := by
  intro fuel
  induction fuel with
  | zero =>
    intro ind queue result hinv hfuel
    obtain ⟨hnd, hsub, hcnt, hzm, hmz⟩ := hinv
    have hlen : (result ++ queue).length ≤ (dag.map (·.task_id)).length :=
      (hnd.subperm (fun v hv => hsub v hv)).length_le
    rw [List.length_append] at hlen
    have hq : queue = [] := List.eq_nil_of_length_eq_zero (by omega)
    subst hq
    exact ⟨result, ind, rfl, hnd, hsub, hcnt, hzm, hmz⟩
  | succ fuel ih =>
    intro ind queue result hinv hfuel
    cases queue with
    | nil =>
      exact ⟨result, ind, rfl, hinv⟩
    | cons c rest =>
      obtain ⟨hnd, hsub, hcnt, hzm, hmz⟩ := hinv
      have hshape : result ++ c :: rest = (result ++ [c]) ++ rest := by
        rw [List.append_assoc, List.singleton_append]
      have hcnotres : c ∉ result := by
        intro hc
        exact (List.disjoint_of_nodup_append hnd) hc (List.mem_cons_self _ _)
      have hfcnt : ∀ v, ind v
          = (remainingDeg dag (result ++ [c]) v : ℤ)
            + ((((edgesOf dag).filter (fun e => e.1 == c)).map (·.2)).count v : ℤ) := by
        intro v
        rw [hcnt v, remainingDeg_split dag result c v hcnotres, succ_count_eq]
        push_cast
        ring
      have hfold : KahnFoldInv dag (result ++ [c])
          (((edgesOf dag).filter (fun e => e.1 == c)).map (·.2)) ind rest := by
        refine ⟨?_, ?_, hfcnt, ?_, ?_⟩
        · rw [← hshape]; exact hnd
        · intro v hv
          rw [← hshape] at hv
          exact hsub v hv
        · intro v hvids hv0
          rw [← hshape]
          exact hzm v hvids hv0
        · intro v hv
          rw [← hshape] at hv
          exact hmz v hv
      have hinner := kahnVisit_fold dag (result ++ [c])
        (((edgesOf dag).filter (fun e => e.1 == c)).map (·.2)) ind rest
        (succ_subset_ids dag c) hfold
      obtain ⟨hnd', hsub', hcnt', hzm', hmz'⟩ := hinner
      have hcnt'' : ∀ v,
          ((((edgesOf dag).filter (fun e => e.1 == c)).map (·.2)).foldl
            kahnVisit (ind, rest)).1 v
            = (remainingDeg dag (result ++ [c]) v : ℤ) := by
        intro v
        rw [hcnt' v]
        simp
      have hinv' : KahnInv dag
          ((((edgesOf dag).filter (fun e => e.1 == c)).map (·.2)).foldl
            kahnVisit (ind, rest)).1
          ((((edgesOf dag).filter (fun e => e.1 == c)).map (·.2)).foldl
            kahnVisit (ind, rest)).2
          (result ++ [c]) :=
        ⟨hnd', hsub', hcnt'', hzm', hmz'⟩
      have hfuel' : (dag.map (·.task_id)).length ≤ fuel + (result ++ [c]).length := by
        rw [List.length_append, List.length_singleton]
        omega
      obtain ⟨res, indf, heq, hfin⟩ := ih _ _ _ hinv' hfuel'
      refine ⟨res, indf, ?_, hfin⟩
      show kahnLoop (buildGraph dag).1 (fuel + 1) ind (c :: rest) result
          = (res, [], indf)
      rw [kahnLoop]
      rw [buildGraph_fst]
      exact heq

lemma kahnInv_init (dag : List Task) (hnd : (dag.map (·.task_id)).Nodup) :
    KahnInv dag (buildGraph dag).2
      ((dag.map (·.task_id)).filter (fun id => (buildGraph dag).2 id == 0)) [] := by
  refine ⟨?_, ?_, ?_, ?_, ?_⟩
  · rw [List.nil_append]
    exact hnd.filter _
  · intro v hv
    rw [List.nil_append, List.mem_filter] at hv
    exact hv.1
  · intro v
    rw [buildGraph_snd, remainingDeg]
    congr 1
    apply List.countP_congr
    intro e _
    simp
  · intro v hvids hv0
    rw [List.nil_append, List.mem_filter]
    exact ⟨hvids, by rw [hv0]; rfl⟩
  · intro v hv
    rw [List.nil_append, List.mem_filter] at hv
    exact beq_iff_eq.mp hv.2

lemma kahn_props (dag : List Task) (hnd : (dag.map (·.task_id)).Nodup) :
    (∀ id ∈ get_topological_order dag, id ∈ dag.map (·.task_id)) ∧
    (∀ t ∈ dag, (∀ d ∈ t.dependencies, d ∈ get_topological_order dag) →
      t.task_id ∈ get_topological_order dag) := by
  obtain ⟨res, indf, heq, hfin⟩ := kahnLoop_spec dag (dag.map (·.task_id)).length
    (buildGraph dag).2
    ((dag.map (·.task_id)).filter (fun id => (buildGraph dag).2 id == 0)) []
    (kahnInv_init dag hnd) (by simp)
  have htopo : get_topological_order dag = res := by
    rw [get_topological_order, heq]
  obtain ⟨-, hsub, hcnt, hzm, -⟩ := hfin
  constructor
  · intro id hid
    rw [htopo] at hid
    exact hsub id (by rw [List.append_nil]; exact hid)
  · intro t ht hdeps
    rw [htopo] at hdeps ⊢
    have hrem : remainingDeg dag res t.task_id = 0 := by
      rw [remainingDeg, List.countP_eq_zero]
      intro e he hP
      rw [Bool.and_eq_true, beq_iff_eq, Bool.not_eq_true'] at hP
      obtain ⟨h2, h1⟩ := hP
      obtain ⟨u, hu, huid, hudep, -⟩ := mem_edgesOf he
      have hut : u = t := List.inj_on_of_nodup_map hnd hu ht (by rw [huid, h2])
      subst hut
      have : e.1 ∈ res := hdeps e.1 hudep
      rw [← Bool.not_eq_true] at h1
      exact h1 (List.elem_iff.mpr this)
    have hzero : indf t.task_id = 0 := by
      rw [hcnt t.task_id, hrem]
      rfl
    have := hzm t.task_id (List.mem_map.mpr ⟨t, ht, rfl⟩) hzero
    rw [List.append_nil] at this
    exact this


/-! ### Generic list and relation helpers -/

lemma forall₂_self {R : Task → Task → Prop} (h : ∀ a, R a a) :
    ∀ l : List Task, List.Forall₂ R l l := by
  intro l
  induction l with
  | nil => exact List.Forall₂.nil
  | cons a l ih => exact List.Forall₂.cons (h a) ih

lemma forall₂_map_self {R : Task → Task → Prop} (g : Task → Task)
    (h : ∀ a, R a (g a)) : ∀ l : List Task, List.Forall₂ R l (l.map g) := by
  intro l
  induction l with
  | nil => exact List.Forall₂.nil
  | cons a l ih => exact List.Forall₂.cons (h a) ih

lemma forall₂_trans' (R S T : Task → Task → Prop)
    (h : ∀ a b c, R a b → S b c → T a c) :
    ∀ {l₁ l₂ l₃ : List Task}, List.Forall₂ R l₁ l₂ → List.Forall₂ S l₂ l₃ →
      List.Forall₂ T l₁ l₃ := by
  intro l₁ l₂ l₃ h₁ h₂
  induction h₁ generalizing l₃ with
  | nil =>
    cases h₂
    exact List.Forall₂.nil
  | cons hab hl ih =>
    cases h₂ with
    | cons hbc hl' => exact List.Forall₂.cons (h _ _ _ hab hbc) (ih hl')

lemma forall₂_mem_right {R : Task → Task → Prop} :
    ∀ {l l' : List Task}, List.Forall₂ R l l' → ∀ b ∈ l', ∃ a ∈ l, R a b := by
  intro l l' h
  induction h with
  | nil => intro b hb; cases hb
  | cons hab hl ih =>
    intro b hb
    rcases List.mem_cons.mp hb with hb | hb
    · exact ⟨_, List.mem_cons_self _ _, hb ▸ hab⟩
    · obtain ⟨a, ha, har⟩ := ih b hb
      exact ⟨a, List.mem_cons_of_mem _ ha, har⟩

lemma forall₂_map_eq {β : Type} {R : Task → Task → Prop} {f : Task → β}
    (hf : ∀ a b, R a b → f b = f a) :
    ∀ {l l' : List Task}, List.Forall₂ R l l' → l'.map f = l.map f := by
  intro l l' h
  induction h with
  | nil => rfl
  | cons hab hl ih => simp [ih, hf _ _ hab]

lemma stepRel_refl (t : Task) : StepRel t t :=
  ⟨rfl, rfl, rfl, rfl, rfl, fun h => h⟩

lemma stepRel_trans {a b c : Task} (h₁ : StepRel a b) (h₂ : StepRel b c) :
    StepRel a c := by
  obtain ⟨i1, e1, d1, m1, r1, s1⟩ := h₁
  obtain ⟨i2, e2, d2, m2, r2, s2⟩ := h₂
  exact ⟨i2.trans i1, e2.trans e1, d2.trans d1, m2.trans m1, r2.trans r1,
    fun h => s1 (s2 h)⟩

lemma stepRel_taskId {a b : Task} (h : StepRel a b) : b.task_id = a.task_id := h.1

lemma sameButAssigned_stepRel {a b : Task} (h : SameButAssigned a b) : StepRel a b := by
  obtain ⟨i, e, d, s, -, -, r, m⟩ := h
  exact ⟨i, e, d, m, r, fun hh => s ▸ hh⟩

lemma find?_append_some {α : Type} {p : α → Bool} {l₁ : List α} {a : α}
    (l₂ : List α) (h : l₁.find? p = some a) : (l₁ ++ l₂).find? p = some a := by
  induction l₁ with
  | nil => cases h
  | cons x l ih =>
    rw [List.cons_append]
    rw [List.find?_cons] at h ⊢
    cases hp : p x
    · rw [hp] at h
      simp only [Bool.false_eq_true, if_false] at h ⊢
      exact ih h
    · rw [hp] at h
      simpa using h

lemma find?_append_none {α : Type} {p : α → Bool} {l₁ : List α}
    (l₂ : List α) (h : l₁.find? p = none) : (l₁ ++ l₂).find? p = l₂.find? p := by
  induction l₁ with
  | nil => rfl
  | cons x l ih =>
    rw [List.find?_cons] at h
    cases hp : p x
    · rw [hp] at h
      simp only [Bool.false_eq_true, if_false] at h
      rw [List.cons_append, List.find?_cons, hp]
      simpa using ih h
    · rw [hp] at h
      cases h

lemma scheduleGet_append_isSome {sch l : List (ℤ × ℤ)} {tid : ℤ}
    (h : (scheduleGet sch tid).isSome) : (scheduleGet (sch ++ l) tid).isSome := by
  rw [scheduleGet] at h ⊢
  cases hf : sch.find? (fun p => p.1 == tid) with
  | none => rw [hf] at h; cases h
  | some a => rw [find?_append_some l hf]; rfl

lemma scheduleGet_append_self_isSome (sch : List (ℤ × ℤ)) (tid v : ℤ) :
    (scheduleGet (sch ++ [(tid, v)]) tid).isSome := by
  cases hf : sch.find? (fun p => p.1 == tid) with
  | none =>
    rw [scheduleGet, find?_append_none _ hf]
    simp [List.find?_cons]
  | some a =>
    exact scheduleGet_append_isSome (by rw [scheduleGet, hf]; rfl)

lemma scheduleGet_mem {sch : List (ℤ × ℤ)} {tid v : ℤ}
    (h : scheduleGet sch tid = some v) : (tid, v) ∈ sch := by
  rw [scheduleGet] at h
  cases hf : sch.find? (fun p => p.1 == tid) with
  | none => rw [hf] at h; cases h
  | some p =>
    rw [hf] at h
    have hmem := List.mem_of_find?_eq_some hf
    have hp := List.find?_some hf
    have hv : p.2 = v := by simpa using h
    have ht : p.1 = tid := by simpa using hp
    have : p = (tid, v) := by
      rw [← ht, ← hv]
    rw [← this]
    exact hmem

lemma get_task_isSome_iff (dag : List Task) (task_id : ℤ) :
    (get_task dag task_id).isSome ↔ task_id ∈ dag.map (·.task_id) := by
  rw [get_task, List.find?_isSome, List.mem_map]
  constructor
  · rintro ⟨t, ht, hb⟩
    exact ⟨t, ht, by simpa using hb⟩
  · rintro ⟨t, ht, hb⟩
    exact ⟨t, ht, by simpa using hb⟩

lemma get_task_of_mem_nodup : ∀ {dag : List Task},
    (dag.map (·.task_id)).Nodup → ∀ {t : Task}, t ∈ dag →
      get_task dag t.task_id = some t := by
  intro dag
  induction dag with
  | nil => intro _ t ht; cases ht
  | cons u l ih =>
    intro hnd t ht
    rw [List.map_cons, List.nodup_cons] at hnd
    rcases List.mem_cons.mp ht with h | h
    · subst h
      rw [get_task, List.find?_cons]
      simp
    · have hne : u.task_id ≠ t.task_id := by
        intro hc
        exact hnd.1 (hc ▸ List.mem_map.mpr ⟨t, h, rfl⟩)
      have hb : (u.task_id == t.task_id) = false := beq_eq_false_iff_ne.mpr hne
      rw [get_task, List.find?_cons, hb]
      simpa using ih hnd.2 h

lemma mem_get_ready_tasks {dag : List Task} {completed : List ℤ} {id : ℤ} :
    id ∈ get_ready_tasks dag completed ↔
      ∃ t ∈ dag, t.task_id = id ∧ t.status = .pending ∧
        t.is_ready completed = true := by
  rw [get_ready_tasks, List.mem_map]
  constructor
  · rintro ⟨t, ht, rfl⟩
    rw [List.mem_filter, Bool.and_eq_true] at ht
    exact ⟨t, ht.1, rfl, by simpa using ht.2.1, ht.2.2⟩
  · rintro ⟨t, ht, rfl, hs, hr⟩
    exact ⟨t, List.mem_filter.mpr ⟨ht, by simp [hs, hr]⟩, rfl⟩


/-! ### Baseline schedule facts -/

lemma sameButAssigned_refl (t : Task) : SameButAssigned t t :=
  ⟨rfl, rfl, rfl, rfl, rfl, rfl, rfl, rfl⟩

lemma sameButAssigned_trans {a b c : Task} (h₁ : SameButAssigned a b)
    (h₂ : SameButAssigned b c) : SameButAssigned a c := by
  obtain ⟨i1, e1, d1, s1, t1, f1, r1, m1⟩ := h₁
  obtain ⟨i2, e2, d2, s2, t2, f2, r2, m2⟩ := h₂
  exact ⟨i2.trans i1, e2.trans e1, d2.trans d1, s2.trans s1, t2.trans t1,
    f2.trans f1, r2.trans r1, m2.trans m1⟩

lemma firstMaxBy_mem {key : FogNode → ℚ} {l : List FogNode} {b : FogNode}
    (h : firstMaxBy key l = some b) : b ∈ l := by
  cases l with
  | nil => cases h
  | cons x xs =>
    obtain ⟨hmem, -⟩ := foldl_pickMax_spec key xs x
    rw [firstMaxBy] at h
    obtain rfl : _ = b := Option.some.inj h
    exact hmem

lemma dagUpdate_map_id (f : Task → Task) (hf : ∀ t, (f t).task_id = t.task_id)
    (dag : List Task) (id : ℤ) :
    (dagUpdate dag id f).map (·.task_id) = dag.map (·.task_id) := by
  rw [dagUpdate, List.map_map]
  apply List.map_congr_left
  intro t _
  by_cases h : t.task_id = id <;> simp [h, hf t]

lemma sbAssign_fold_spec (nodes : List FogNode) :
    ∀ (tids : List ℤ) (d : List Task) (sch : List (ℤ × ℤ)) (d' : List Task)
      (sch' : List (ℤ × ℤ)),
      tids.foldlM (sbAssign nodes) (d, sch) = .ok (d', sch') →
      List.Forall₂ SameButAssigned d d' ∧
      (∀ p ∈ sch', p ∈ sch ∨ (p.1 ∈ tids ∧ ∃ b ∈ nodes, b.node_id = p.2)) ∧
      (∀ tid, (scheduleGet sch tid).isSome → (scheduleGet sch' tid).isSome) ∧
      (∀ tid ∈ tids, tid ∈ d.map (·.task_id) → (scheduleGet sch' tid).isSome) := by
  intro tids
  induction tids with
  | nil =>
    intro d sch d' sch' h
    rw [List.foldlM_nil] at h
    obtain ⟨rfl, rfl⟩ : d = d' ∧ sch = sch' := by
      have h' := Except.ok.inj h
      exact ⟨congrArg Prod.fst h', congrArg Prod.snd h'⟩
    refine ⟨forall₂_self sameButAssigned_refl d, fun p hp => Or.inl hp,
      fun tid h => h, fun tid h => absurd h (List.not_mem_nil _)⟩
  | cons tid tids ih =>
    intro d sch d' sch' h
    rw [List.foldlM_cons] at h
    cases hg : get_task d tid with
    | none =>
      simp only [sbAssign, hg] at h
      obtain ⟨h1, h2, h3, h4⟩ := ih d sch d' sch' h
      refine ⟨h1, ?_, h3, ?_⟩
      · intro p hp
        rcases h2 p hp with hc | ⟨hc1, hc2⟩
        · exact Or.inl hc
        · exact Or.inr ⟨List.mem_cons_of_mem _ hc1, hc2⟩
      · intro tid0 htid0 hmem
        rcases List.mem_cons.mp htid0 with rfl | htid0
        · exfalso
          have := (get_task_isSome_iff d tid0).mpr hmem
          rw [hg] at this
          cases this
        · exact h4 tid0 htid0 hmem
    | some task =>
      cases hm : firstMaxBy FogNode.get_mobility_score nodes with
      | none =>
        simp only [sbAssign, hg, hm] at h
        have h' : (Except.error "IndexError: list index out of range" :
            Except String (List Task × List (ℤ × ℤ))) = .ok (d', sch') := h
        cases h'
      | some best =>
        simp only [sbAssign, hg, hm] at h
        obtain ⟨h1, h2, h3, h4⟩ := ih _ _ d' sch' h
        have hstep : List.Forall₂ SameButAssigned d
            (dagUpdate d tid ({ · with assigned_node := some best.node_id })) := by
          rw [dagUpdate]
          apply forall₂_map_self
          intro t
          dsimp only
          split
          · exact ⟨rfl, rfl, rfl, rfl, rfl, rfl, rfl, rfl⟩
          · exact sameButAssigned_refl t
        refine ⟨forall₂_trans' SameButAssigned SameButAssigned SameButAssigned
          (fun _ _ _ hab hbc => sameButAssigned_trans hab hbc) hstep h1,
          ?_, ?_, ?_⟩
        · intro p hp
          rcases h2 p hp with hc | ⟨hc1, hc2⟩
          · rcases List.mem_append.mp hc with hc | hc
            · exact Or.inl hc
            · rw [List.mem_singleton] at hc
              subst hc
              exact Or.inr ⟨List.mem_cons_self _ _, best, firstMaxBy_mem hm, rfl⟩
          · exact Or.inr ⟨List.mem_cons_of_mem _ hc1, hc2⟩
        · intro tid0 hs
          exact h3 tid0 (scheduleGet_append_isSome hs)
        · intro tid0 htid0 hmem
          rcases List.mem_cons.mp htid0 with rfl | htid0
          · exact h3 tid0 (scheduleGet_append_self_isSome sch tid0 best.node_id)
          · refine h4 tid0 htid0 ?_
            rw [dagUpdate_map_id
              (fun x => { x with assigned_node := some best.node_id })
              (fun t => rfl)]
            exact hmem

lemma schedule_tasks_ok_spec {nodes : List FogNode} {dag d' : List Task}
    {sch' : List (ℤ × ℤ)}
    (h : schedule_tasks_baseline nodes dag = .ok (d', sch')) :
    List.Forall₂ SameButAssigned dag d' ∧
    (∀ p ∈ sch', p.1 ∈ get_topological_order dag ∧
      ∃ b ∈ nodes, b.node_id = p.2) ∧
    (∀ tid ∈ get_topological_order dag, tid ∈ dag.map (·.task_id) →
      (scheduleGet sch' tid).isSome) := by
  rw [schedule_tasks_baseline] at h
  obtain ⟨h1, h2, -, h4⟩ := sbAssign_fold_spec nodes _ dag [] d' sch' h
  refine ⟨h1, ?_, h4⟩
  intro p hp
  rcases h2 p hp with hc | ⟨hc1, hc2⟩
  · cases hc
  · exact ⟨hc1, hc2⟩

lemma sbAssign_ok {nodes : List FogNode} (hne : nodes ≠ [])
    (acc : List Task × List (ℤ × ℤ)) (tid : ℤ) :
    ∃ acc', sbAssign nodes acc tid = .ok acc' := by
  cases hg : get_task acc.1 tid with
  | none =>
    refine ⟨acc, ?_⟩
    unfold sbAssign
    rw [hg]
  | some t =>
    cases nodes with
    | nil => exact absurd rfl hne
    | cons x xs =>
      unfold sbAssign
      rw [hg]
      exact ⟨_, rfl⟩

lemma sbAssign_fold_isOk {nodes : List FogNode} (hne : nodes ≠ []) :
    ∀ (tids : List ℤ) (acc : List Task × List (ℤ × ℤ)),
      ∃ out, tids.foldlM (sbAssign nodes) acc = .ok out := by
  intro tids
  induction tids with
  | nil => intro acc; exact ⟨acc, rfl⟩
  | cons tid tids ih =>
    intro acc
    obtain ⟨acc', hacc'⟩ := sbAssign_ok hne acc tid
    rw [List.foldlM_cons, hacc']
    obtain ⟨out, hout⟩ := ih acc'
    exact ⟨out, hout⟩

lemma schedule_tasks_isOk {nodes : List FogNode} (hne : nodes ≠ [])
    (dag : List Task) :
    ∃ out, schedule_tasks_baseline nodes dag = .ok out := by
  rw [schedule_tasks_baseline]
  exact sbAssign_fold_isOk hne _ _


/-! ### Baseline engine loop: step and sweep facts -/

lemma stepRel_assign (nid : ℤ) (t : Task) : StepRel t (t.assign_to_node nid) :=
  ⟨rfl, rfl, rfl, rfl, rfl, fun h => absurd h (by simp [Task.assign_to_node])⟩

lemma stepRel_mark_completed (time : ℚ) (t : Task) :
    StepRel t (t.mark_completed time) :=
  ⟨rfl, rfl, rfl, rfl, rfl, fun h => absurd h (by simp [Task.mark_completed])⟩

lemma stepRel_mark_failed (t : Task) : StepRel t t.mark_failed :=
  ⟨rfl, rfl, rfl, rfl, rfl, fun h => absurd h (by simp [Task.mark_failed])⟩

lemma stepRel_dagUpdate {f : Task → Task} (hf : ∀ t, StepRel t (f t))
    (dag : List Task) (id : ℤ) : List.Forall₂ StepRel dag (dagUpdate dag id f) := by
  rw [dagUpdate]
  apply forall₂_map_self
  intro t
  dsimp only
  split
  · exact hf t
  · exact stepRel_refl t

lemma forall₂_stepRel_trans {l₁ l₂ l₃ : List Task}
    (h₁ : List.Forall₂ StepRel l₁ l₂) (h₂ : List.Forall₂ StepRel l₂ l₃) :
    List.Forall₂ StepRel l₁ l₃ :=
  forall₂_trans' StepRel StepRel StepRel
    (fun _ _ _ hab hbc => stepRel_trans hab hbc) h₁ h₂

lemma mem_setAdd {l : List ℤ} {x id : ℤ} :
    id ∈ setAdd l x ↔ id ∈ l ∨ id = x := by
  rw [setAdd]
  split
  · constructor
    · exact Or.inl
    · rintro (h | rfl)
      · exact h
      · exact List.elem_iff.mp (by assumption)
  · rw [List.mem_append, List.mem_singleton]

lemma mem_dagUpdate_at {dag : List Task} {id : ℤ} {f : Task → Task} {u : Task}
    (hu : u ∈ dagUpdate dag id f) (hid : u.task_id = id) :
    ∃ t ∈ dag, u = f t := by
  rw [dagUpdate, List.mem_map] at hu
  obtain ⟨t, ht, heq⟩ := hu
  by_cases hb : t.task_id = id
  · refine ⟨t, ht, ?_⟩
    rw [← heq]
    simp [hb]
  · rw [← heq] at hid
    have hb' : (t.task_id == id) = false := beq_eq_false_iff_ne.mpr hb
    rw [hb'] at hid
    simp only [Bool.false_eq_true, if_false] at hid
    exact absurd hid hb

lemma baselineStep_rel (sch : List (ℤ × ℤ)) (succ : ℕ → Bool) (st : SimState)
    (tid : ℤ) :
    List.Forall₂ StepRel st.dag (baselineStep sch succ st tid).dag ∧
    (baselineStep sch succ st tid).nodes = st.nodes ∧
    (∀ id ∈ st.completed, id ∈ (baselineStep sch succ st tid).completed) ∧
    (∀ id ∈ (baselineStep sch succ st tid).completed,
      id ∈ st.completed ∨ (scheduleGet sch id).isSome) := by
  rw [baselineStep]
  cases hg : get_task st.dag tid with
  | none =>
    exact ⟨forall₂_self stepRel_refl _, rfl, fun id h => h, fun id h => Or.inl h⟩
  | some task =>
    dsimp only
    by_cases hp : (task.status == TaskStatus.pending) = true
    · rw [if_pos hp]
      cases hs : scheduleGet sch tid with
      | none =>
        exact ⟨forall₂_self stepRel_refl _, by trivial, fun id h => h,
          fun id h => Or.inl h⟩
      | some node_id =>
        dsimp only
        cases hn : st.nodes.find? (fun n => n.node_id == node_id) with
        | none =>
          exact ⟨forall₂_self stepRel_refl _, by trivial, fun id h => h,
            fun id h => Or.inl h⟩
        | some node =>
          dsimp only
          cases hsucc : succ st.idx
          · simp only [Bool.false_eq_true, if_false]
            refine ⟨?_, by trivial, fun id h => h, fun id h => Or.inl h⟩
            exact forall₂_stepRel_trans
              (stepRel_dagUpdate (stepRel_assign node_id) _ _)
              (stepRel_dagUpdate stepRel_mark_failed _ _)
          · simp only [if_true]
            refine ⟨?_, by trivial, ?_, ?_⟩
            · exact forall₂_stepRel_trans
                (stepRel_dagUpdate (stepRel_assign node_id) _ _)
                (stepRel_dagUpdate
                  (stepRel_mark_completed _) _ _)
            · intro id h
              exact mem_setAdd.mpr (Or.inl h)
            · intro id h
              rcases mem_setAdd.mp h with h | rfl
              · exact Or.inl h
              · exact Or.inr (by rw [hs]; rfl)
    · rw [if_neg hp]
      exact ⟨forall₂_self stepRel_refl _, rfl, fun id h => h, fun id h => Or.inl h⟩

lemma baselineStep_fires (sch : List (ℤ × ℤ)) (succ : ℕ → Bool) (st : SimState)
    {tid : ℤ} {task : Task} {v : ℤ} {node : FogNode}
    (hg : get_task st.dag tid = some task) (hp : task.status = .pending)
    (hs : scheduleGet sch tid = some v)
    (hn : st.nodes.find? (fun n => n.node_id == v) = some node) :
    ∀ u ∈ (baselineStep sch succ st tid).dag, u.task_id = tid →
      u.status ≠ .pending := by
  intro u hu hid
  rw [baselineStep, hg] at hu
  dsimp only at hu
  rw [if_pos (by simp [hp])] at hu
  rw [hs] at hu
  dsimp only at hu
  rw [hn] at hu
  dsimp only at hu
  cases hsucc : succ st.idx <;> rw [hsucc] at hu
  · simp only [Bool.false_eq_true, if_false] at hu
    obtain ⟨t, -, rfl⟩ := mem_dagUpdate_at hu hid
    simp [Task.mark_failed]
  · simp only [if_true] at hu
    obtain ⟨t, -, rfl⟩ := mem_dagUpdate_at hu hid
    simp [Task.mark_completed]

lemma baselineSweep_rel (sch : List (ℤ × ℤ)) (succ : ℕ → Bool) :
    ∀ (l : List ℤ) (st : SimState),
      List.Forall₂ StepRel st.dag ((l.foldl (baselineStep sch succ) st)).dag ∧
      ((l.foldl (baselineStep sch succ) st)).nodes = st.nodes ∧
      (∀ id ∈ st.completed, id ∈ ((l.foldl (baselineStep sch succ) st)).completed) ∧
      (∀ id ∈ ((l.foldl (baselineStep sch succ) st)).completed,
        id ∈ st.completed ∨ (scheduleGet sch id).isSome) := by
  intro l
  induction l with
  | nil =>
    intro st
    exact ⟨forall₂_self stepRel_refl _, rfl, fun id h => h, fun id h => Or.inl h⟩
  | cons tid l ih =>
    intro st
    rw [List.foldl_cons]
    obtain ⟨s1, s2, s3, s4⟩ := baselineStep_rel sch succ st tid
    obtain ⟨i1, i2, i3, i4⟩ := ih (baselineStep sch succ st tid)
    refine ⟨forall₂_stepRel_trans s1 i1, i2.trans s2, ?_, ?_⟩
    · intro id h
      exact i3 id (s3 id h)
    · intro id h
      rcases i4 id h with h | h
      · exact s4 id h
      · exact Or.inr h

lemma nonpending_mono {d d' : List Task} (h : List.Forall₂ StepRel d d') {id : ℤ}
    (hnp : ∀ u ∈ d, u.task_id = id → u.status ≠ .pending) :
    ∀ u ∈ d', u.task_id = id → u.status ≠ .pending := by
  intro u hu hid hp
  obtain ⟨a, ha, har⟩ := forall₂_mem_right h u hu
  exact hnp a ha (har.1 ▸ hid) (har.2.2.2.2.2 hp)

lemma mem_pendingIds {d : List Task} {id : ℤ} :
    id ∈ pendingIds d ↔ ∃ t ∈ d, t.task_id = id ∧ t.status = .pending := by
  rw [pendingIds, List.mem_map]
  constructor
  · rintro ⟨t, ht, rfl⟩
    rw [List.mem_filter] at ht
    exact ⟨t, ht.1, rfl, by simpa using ht.2⟩
  · rintro ⟨t, ht, rfl, hs⟩
    exact ⟨t, List.mem_filter.mpr ⟨ht, by simp [hs]⟩, rfl⟩

lemma pendingIds_subset {d d' : List Task} (h : List.Forall₂ StepRel d d') :
    pendingIds d' ⊆ pendingIds d := by
  intro id hid
  obtain ⟨t, ht, rfl, hs⟩ := mem_pendingIds.mp hid
  obtain ⟨a, ha, har⟩ := forall₂_mem_right h t ht
  exact mem_pendingIds.mpr ⟨a, ha, har.1.symm, har.2.2.2.2.2 hs⟩

lemma pendingIds_nodup {d : List Task} (h : (d.map (·.task_id)).Nodup) :
    (pendingIds d).Nodup :=
  List.Nodup.sublist (List.Sublist.map _ (List.filter_sublist d)) h

lemma length_lt_of_proper {l' l : List ℤ} (hnd : l'.Nodup) (hsub : l' ⊆ l)
    {x : ℤ} (hx : x ∈ l) (hx' : x ∉ l') : l'.length < l.length := by
  have hsub' : l' ⊆ l.erase x := by
    intro a ha
    have hne : a ≠ x := fun hc => hx' (hc ▸ ha)
    exact (List.mem_erase_of_ne hne).mpr (hsub ha)
  have h1 : l'.length ≤ (l.erase x).length :=
    (hnd.subperm hsub').length_le
  have h2 : (l.erase x).length = l.length - 1 := List.length_erase_of_mem hx
  have h3 : 0 < l.length := List.length_pos_of_mem hx
  omega


/-! ### Dict construction and reset preserve ids -/

lemma dictInsert_map_mem {l : List Task} {t : Task} {v : ℤ}
    (h : v ∈ (dictInsert l t).map (·.task_id)) :
    v = t.task_id ∨ v ∈ l.map (·.task_id) := by
  induction l with
  | nil =>
    rcases List.mem_map.mp h with ⟨u, hu, huv⟩
    left
    have hut : u = t := by
      have : u ∈ [t] := by simpa [dictInsert] using hu
      simpa using this
    rw [← huv, hut]
  | cons x xs ih =>
    rw [dictInsert] at h
    split at h
    · rw [List.map_cons, List.mem_cons] at h
      rcases h with rfl | h
      · exact Or.inl rfl
      · exact Or.inr (List.mem_map.mp h |>.elim
          fun u hu => List.mem_map.mpr ⟨u, List.mem_cons_of_mem _ hu.1, hu.2⟩)
    · rw [List.map_cons, List.mem_cons] at h
      rcases h with rfl | h
      · exact Or.inr (by simp)
      · rcases ih h with h | h
        · exact Or.inl h
        · exact Or.inr (List.mem_map.mp h |>.elim
            fun u hu => List.mem_map.mpr ⟨u, List.mem_cons_of_mem _ hu.1, hu.2⟩)

lemma dictInsert_nodup {l : List Task} {t : Task}
    (h : (l.map (·.task_id)).Nodup) :
    ((dictInsert l t).map (·.task_id)).Nodup := by
  induction l with
  | nil => simp [dictInsert]
  | cons x xs ih =>
    rw [List.map_cons, List.nodup_cons] at h
    rw [dictInsert]
    split
    · rename_i hbeq
      rw [List.map_cons, List.nodup_cons]
      have : x.task_id = t.task_id := beq_iff_eq.mp hbeq
      exact ⟨this ▸ h.1, h.2⟩
    · rename_i hbeq
      rw [List.map_cons, List.nodup_cons]
      refine ⟨?_, ih h.2⟩
      intro hc
      rcases dictInsert_map_mem hc with hc | hc
      · exact hbeq (beq_iff_eq.mpr hc)
      · exact h.1 hc

lemma dictInsert_length (l : List Task) (t : Task) :
    (dictInsert l t).length ≤ l.length + 1 := by
  induction l with
  | nil => simp [dictInsert]
  | cons x xs ih =>
    rw [dictInsert]
    split
    · simp
    · simpa using ih

lemma mkDagTasks_nodup (l : List Task) :
    ((mkDagTasks l).map (·.task_id)).Nodup := by
  rw [mkDagTasks]
  have : ∀ (acc : List Task), (acc.map (·.task_id)).Nodup →
      ((l.foldl dictInsert acc).map (·.task_id)).Nodup := by
    induction l with
    | nil => intro acc h; exact h
    | cons t ts ih =>
      intro acc h
      rw [List.foldl_cons]
      exact ih _ (dictInsert_nodup h)
  exact this [] (by simp)

lemma mkDagTasks_length (l : List Task) :
    (mkDagTasks l).length ≤ l.length := by
  rw [mkDagTasks]
  have : ∀ (acc : List Task),
      (l.foldl dictInsert acc).length ≤ acc.length + l.length := by
    induction l with
    | nil => intro acc; simp
    | cons t ts ih =>
      intro acc
      rw [List.foldl_cons]
      calc ((ts.foldl dictInsert (dictInsert acc t))).length
          ≤ (dictInsert acc t).length + ts.length := ih _
        _ ≤ acc.length + 1 + ts.length := by
            have := dictInsert_length acc t
            omega
        _ = acc.length + (t :: ts).length := by simp; omega
  simpa using this []

lemma reset_all_map_id (d : List Task) :
    (reset_all_tasks d).map (·.task_id) = d.map (·.task_id) := by
  rw [reset_all_tasks, List.map_map]
  rfl

lemma pendingIds_length_le (d : List Task) : (pendingIds d).length ≤ d.length := by
  rw [pendingIds, List.length_map]
  exact (List.filter_sublist d).length_le

/-! ### Baseline loop: progress and exit analysis -/

lemma stepRel_map_id {l l' : List Task} (h : List.Forall₂ StepRel l l') :
    l'.map (·.task_id) = l.map (·.task_id) :=
  forall₂_map_eq (fun _ _ hab => hab.1) h

lemma sameButAssigned_map_id {l l' : List Task}
    (h : List.Forall₂ SameButAssigned l l') :
    l'.map (·.task_id) = l.map (·.task_id) :=
  forall₂_map_eq (fun _ _ hab => hab.1) h

lemma baseline_HR {nodes : List FogNode} {dag₀ dag₁ : List Task}
    {sch : List (ℤ × ℤ)}
    (hnd₀ : (dag₀.map (·.task_id)).Nodup)
    (hok : schedule_tasks_baseline nodes dag₀ = .ok (dag₁, sch)) :
    ∀ st : SimState, List.Forall₂ StepRel dag₁ st.dag → st.nodes = nodes →
      (∀ id ∈ st.completed, (scheduleGet sch id).isSome) →
      ∀ r0 ∈ get_ready_tasks st.dag st.completed,
        ∃ v node, scheduleGet sch r0 = some v ∧
          nodes.find? (fun n => n.node_id == v) = some node := by
  obtain ⟨hSA, hP, hK⟩ := schedule_tasks_ok_spec hok
  intro st hF hN hC r0 hr0
  obtain ⟨t, ht, htid, hpend, hrdy⟩ := mem_get_ready_tasks.mp hr0
  have hchain : List.Forall₂ StepRel dag₀ st.dag :=
    forall₂_stepRel_trans
      (forall₂_trans' SameButAssigned StepRel StepRel
        (fun _ _ _ hab hbc => stepRel_trans (sameButAssigned_stepRel hab) hbc)
        hSA (forall₂_self stepRel_refl dag₁))
      hF
  obtain ⟨a, ha, har⟩ := forall₂_mem_right hchain t ht
  have hdeps : ∀ d ∈ a.dependencies, d ∈ get_topological_order dag₀ := by
    intro d hd
    have hd' : d ∈ t.dependencies := har.2.2.1 ▸ hd
    have hdc : d ∈ st.completed := by
      rw [Task.is_ready, List.all_eq_true] at hrdy
      exact List.elem_iff.mp (hrdy d hd')
    obtain ⟨vd, hvd⟩ := Option.isSome_iff_exists.mp (hC d hdc)
    have := scheduleGet_mem hvd
    exact (hP (d, vd) this).1
  have htopo : a.task_id ∈ get_topological_order dag₀ :=
    (kahn_props dag₀ hnd₀).2 a ha hdeps
  have hida : a.task_id = r0 := har.1 ▸ htid
  have hmemids : a.task_id ∈ dag₀.map (·.task_id) := List.mem_map.mpr ⟨a, ha, rfl⟩
  have hks : (scheduleGet sch a.task_id).isSome := hK a.task_id htopo hmemids
  obtain ⟨v, hv⟩ := Option.isSome_iff_exists.mp hks
  obtain ⟨-, b, hb, hbid⟩ := hP (a.task_id, v) (scheduleGet_mem hv)
  have hfind : (nodes.find? (fun n => n.node_id == v)).isSome :=
    List.find?_isSome.mpr ⟨b, hb, by simp [hbid]⟩
  obtain ⟨node, hnode⟩ := Option.isSome_iff_exists.mp hfind
  exact ⟨v, node, hida ▸ hv, hnode⟩

lemma baselineLoop_exit (sch : List (ℤ × ℤ)) (succ : ℕ → Bool) (total : ℕ)
    (nodes₀ : List FogNode) (dag₁ : List Task)
    (hnd : (dag₁.map (·.task_id)).Nodup)
    (HR : ∀ st : SimState, List.Forall₂ StepRel dag₁ st.dag → st.nodes = nodes₀ →
      (∀ id ∈ st.completed, (scheduleGet sch id).isSome) →
      ∀ r0 ∈ get_ready_tasks st.dag st.completed,
        ∃ v node, scheduleGet sch r0 = some v ∧
          nodes₀.find? (fun n => n.node_id == v) = some node) :
    ∀ (fuel : ℕ) (st : SimState),
      List.Forall₂ StepRel dag₁ st.dag → st.nodes = nodes₀ →
      (∀ id ∈ st.completed, (scheduleGet sch id).isSome) →
      (pendingIds st.dag).length < fuel →
      ∃ st' ek, baselineLoop sch succ total fuel st = (st', ek) ∧
        (ek = .allDone ∨ ek = .stalled) := by
  intro fuel
  induction fuel with
  | zero =>
    intro st _ _ _ h
    omega
  | succ fuel ih =>
    intro st hF hN hC hfuel
    by_cases hc : st.completed.length < total
    · cases hready : get_ready_tasks st.dag st.completed with
      | nil =>
        refine ⟨st, .stalled, ?_, Or.inr rfl⟩
        rw [baselineLoop, if_pos hc, hready]
        rfl
      | cons r0 rest =>
        have hstids : st.dag.map (·.task_id) = dag₁.map (·.task_id) :=
          stepRel_map_id hF
        have hndst : (st.dag.map (·.task_id)).Nodup := hstids ▸ hnd
        have hr0mem : r0 ∈ get_ready_tasks st.dag st.completed := by
          rw [hready]; exact List.mem_cons_self _ _
        obtain ⟨t, ht, htid, hpend, hrdy⟩ := mem_get_ready_tasks.mp hr0mem
        have hget : get_task st.dag r0 = some t :=
          htid ▸ get_task_of_mem_nodup hndst ht
        obtain ⟨v, node, hs, hn⟩ := HR st hF hN hC r0 hr0mem
        have hn' : st.nodes.find? (fun n => n.node_id == v) = some node := by
          rw [hN]; exact hn
        have hfires := baselineStep_fires sch succ st hget hpend hs hn'
        obtain ⟨s1, s2, s3, s4⟩ := baselineStep_rel sch succ st r0
        obtain ⟨w1, w2, w3, w4⟩ :=
          baselineSweep_rel sch succ rest (baselineStep sch succ st r0)
        set stS := rest.foldl (baselineStep sch succ) (baselineStep sch succ st r0)
          with hstS
        have hcompose : List.Forall₂ StepRel st.dag stS.dag :=
          forall₂_stepRel_trans s1 w1
        have hF' : List.Forall₂ StepRel dag₁ stS.dag :=
          forall₂_stepRel_trans hF hcompose
        have hN' : stS.nodes = nodes₀ := by rw [w2, s2, hN]
        have hC' : ∀ id ∈ stS.completed, (scheduleGet sch id).isSome := by
          intro id hid
          rcases w4 id hid with h | h
          · rcases s4 id h with h | h
            · exact hC id h
            · exact h
          · exact h
        have hr0p : r0 ∈ pendingIds st.dag := mem_pendingIds.mpr ⟨t, ht, htid, hpend⟩
        have hr0np : r0 ∉ pendingIds stS.dag := by
          intro hmem
          obtain ⟨u, hu, huid, hupend⟩ := mem_pendingIds.mp hmem
          exact nonpending_mono w1 hfires u hu huid hupend
        have hlen : (pendingIds stS.dag).length < (pendingIds st.dag).length :=
          length_lt_of_proper
            (pendingIds_nodup (by rw [stepRel_map_id hF'] ; exact hnd))
            (pendingIds_subset hcompose) hr0p hr0np
        obtain ⟨st', ek, heq, hek⟩ := ih stS hF' hN' hC' (by omega)
        refine ⟨st', ek, ?_, hek⟩
        rw [baselineLoop, if_pos hc, hready]
        simp only [List.isEmpty_cons, Bool.false_eq_true, if_false,
          List.foldl_cons]
        exact heq
    · refine ⟨st, .allDone, ?_, Or.inl rfl⟩
      rw [baselineLoop, if_neg hc]


/-! ### Baseline trial: exit characterization -/

lemma simulate_baseline_core (stream : ℤ → ℕ → Bool) (sim : Simulator)
    {dag₁ : List Task} {sch : List (ℤ × ℤ)}
    (hok : schedule_tasks_baseline sim.nodes
      (reset_all_tasks (mkDagTasks sim.tasks)) = .ok (dag₁, sch)) :
    ∃ st' ek, simulate_baseline stream sim
        = .ok ((st'.current_time, completed_count sim.tasks st'.dag,
                sim.tasks.length), st', ek) ∧
      (ek = .allDone ∨ ek = .stalled) := by
  have hnd₀ : ((reset_all_tasks (mkDagTasks sim.tasks)).map (·.task_id)).Nodup := by
    rw [reset_all_map_id]
    exact mkDagTasks_nodup sim.tasks
  have hnd₁ : (dag₁.map (·.task_id)).Nodup := by
    rw [sameButAssigned_map_id (schedule_tasks_ok_spec hok).1]
    exact hnd₀
  have hlen₁ : dag₁.length = (reset_all_tasks (mkDagTasks sim.tasks)).length :=
    ((schedule_tasks_ok_spec hok).1.length_eq).symm
  have hfuel : (pendingIds dag₁).length < 10 * sim.tasks.length + 1 := by
    have h1 := pendingIds_length_le dag₁
    have h2 : (reset_all_tasks (mkDagTasks sim.tasks)).length
        = (mkDagTasks sim.tasks).length := by
      rw [reset_all_tasks, List.length_map]
    have h3 := mkDagTasks_length sim.tasks
    omega
  obtain ⟨st', ek, heq, hek⟩ := baselineLoop_exit sch (stream sim.seed)
    sim.tasks.length sim.nodes dag₁ hnd₁ (baseline_HR hnd₀ hok)
    (10 * sim.tasks.length + 1) ⟨dag₁, sim.nodes, [], 0, 0, []⟩
    (forall₂_self stepRel_refl dag₁) rfl (by intro id h; cases h) hfuel
  refine ⟨st', ek, ?_, hek⟩
  rw [simulate_baseline]
  rw [hok]
  dsimp only
  rw [heq]

lemma simulate_baseline_no_fuelOut (stream : ℤ → ℕ → Bool) (sim : Simulator) :
    ∀ out st, simulate_baseline stream sim ≠ .ok (out, st, .fuelOut) := by
  intro out st hcon
  cases hsch : schedule_tasks_baseline sim.nodes
      (reset_all_tasks (mkDagTasks sim.tasks)) with
  | error e =>
    rw [simulate_baseline, hsch] at hcon
    cases hcon
  | ok p =>
    obtain ⟨dag₁, sch⟩ := p
    obtain ⟨st', ek, heq, hek⟩ := simulate_baseline_core stream sim hsch
    rw [heq] at hcon
    have h2 := Except.ok.inj hcon
    have hst : st' = st := congrArg (fun x => x.2.1) h2
    have hekf : ek = ExitKind.fuelOut := congrArg (fun x => x.2.2) h2
    rcases hek with h | h <;> rw [h] at hekf <;> cases hekf

lemma simulate_baseline_ok (stream : ℤ → ℕ → Bool) (sim : Simulator)
    (hne : sim.nodes ≠ []) :
    ∃ out st ek, simulate_baseline stream sim = .ok (out, st, ek) ∧
      (ek = .allDone ∨ ek = .stalled) := by
  obtain ⟨⟨dag₁, sch⟩, hok⟩ :=
    schedule_tasks_isOk hne (reset_all_tasks (mkDagTasks sim.tasks))
  obtain ⟨st', ek, heq, hek⟩ := simulate_baseline_core stream sim hok
  exact ⟨_, st', ek, heq, hek⟩


/-! ### Proposed engine loop: step, sweep and exit analysis -/

lemma update_node_trust_length (ns : List FogNode) (id : ℤ) (b : Bool) :
    (update_node_trust ns id b).length = ns.length := by
  induction ns with
  | nil => rfl
  | cons n ns ih =>
    rw [update_node_trust]
    split
    · simp
    · simpa using ih

lemma proposedStep_ok_rel {succ : ℕ → Bool} {st : SimState} {tid : ℤ}
    {st' : SimState} (h : proposedStep succ st tid = .ok st') :
    List.Forall₂ StepRel st.dag st'.dag ∧
    st'.nodes.length = st.nodes.length ∧
    (∀ id ∈ st.completed, id ∈ st'.completed) := by
  rw [proposedStep] at h
  cases hg : get_task st.dag tid with
  | none =>
    rw [hg] at h
    obtain rfl := Except.ok.inj h
    exact ⟨forall₂_self stepRel_refl _, rfl, fun id hh => hh⟩
  | some task =>
    rw [hg] at h
    dsimp only at h
    by_cases hp : (task.status == TaskStatus.pending) = true
    · rw [if_pos hp] at h
      cases hm : firstMaxBy FogNode.get_reliability_score
          (st.nodes.map fun n => (n.get_utility_score).1) with
      | none =>
        rw [hm] at h
        cases h
      | some best =>
        rw [hm] at h
        dsimp only at h
        cases hsucc : succ st.idx <;> rw [hsucc] at h
        · simp only [Bool.false_eq_true, if_false] at h
          obtain rfl := Except.ok.inj h
          refine ⟨?_, ?_, fun id hh => hh⟩
          · exact forall₂_stepRel_trans
              (stepRel_dagUpdate (stepRel_assign best.node_id) _ _)
              (stepRel_dagUpdate stepRel_mark_failed _ _)
          · rw [update_node_trust_length, List.length_map]
        · simp only [if_true] at h
          obtain rfl := Except.ok.inj h
          refine ⟨?_, ?_, ?_⟩
          · exact forall₂_stepRel_trans
              (stepRel_dagUpdate (stepRel_assign best.node_id) _ _)
              (stepRel_dagUpdate (stepRel_mark_completed _) _ _)
          · rw [update_node_trust_length, List.length_map]
          · intro id hh
            exact mem_setAdd.mpr (Or.inl hh)
    · rw [if_neg hp] at h
      obtain rfl := Except.ok.inj h
      exact ⟨forall₂_self stepRel_refl _, rfl, fun id hh => hh⟩

lemma proposedStep_err {succ : ℕ → Bool} {st : SimState} {tid : ℤ} {task : Task}
    (hg : get_task st.dag tid = some task) (hp : task.status = .pending)
    (hn : st.nodes = []) :
    proposedStep succ st tid
      = .error "ValueError: max() arg is an empty sequence" := by
  rw [proposedStep, hg]
  dsimp only
  rw [if_pos (by simp [hp]), hn]
  rfl

lemma proposedStep_fires {succ : ℕ → Bool} {st : SimState} {tid : ℤ} {task : Task}
    (hg : get_task st.dag tid = some task) (hp : task.status = .pending)
    (hn : st.nodes ≠ []) :
    ∃ st', proposedStep succ st tid = .ok st' ∧
      (∀ u ∈ st'.dag, u.task_id = tid → u.status ≠ .pending) := by
  obtain ⟨x, xs, hxs⟩ := List.exists_cons_of_ne_nil hn
  have hm : ∃ best, firstMaxBy FogNode.get_reliability_score
      (st.nodes.map fun n => (n.get_utility_score).1) = some best := by
    rw [hxs, List.map_cons, firstMaxBy]
    exact ⟨_, rfl⟩
  obtain ⟨best, hbest⟩ := hm
  rw [proposedStep, hg]
  dsimp only
  rw [if_pos (by simp [hp]), hbest]
  dsimp only
  cases hsucc : succ st.idx
  · simp only [Bool.false_eq_true, if_false]
    refine ⟨_, rfl, ?_⟩
    intro u hu hid
    obtain ⟨t, -, rfl⟩ := mem_dagUpdate_at hu hid
    simp [Task.mark_failed]
  · simp only [if_true]
    refine ⟨_, rfl, ?_⟩
    intro u hu hid
    obtain ⟨t, -, rfl⟩ := mem_dagUpdate_at hu hid
    simp [Task.mark_completed]

lemma proposedSweep_ok (succ : ℕ → Bool) :
    ∀ (l : List ℤ) (st : SimState), st.nodes ≠ [] →
      ∃ st', l.foldlM (proposedStep succ) st = .ok st' ∧
        List.Forall₂ StepRel st.dag st'.dag ∧
        st'.nodes.length = st.nodes.length ∧
        (∀ id ∈ st.completed, id ∈ st'.completed) := by
  intro l
  induction l with
  | nil =>
    intro st _
    exact ⟨st, rfl, forall₂_self stepRel_refl _, rfl, fun id hh => hh⟩
  | cons tid rest ih =>
    intro st hne
    have hok : ∃ st₁, proposedStep succ st tid = .ok st₁ := by
      rw [proposedStep]
      cases hg : get_task st.dag tid with
      | none => exact ⟨st, rfl⟩
      | some task =>
        dsimp only
        by_cases hp : (task.status == TaskStatus.pending) = true
        · rw [if_pos hp]
          obtain ⟨x, xs, hxs⟩ := List.exists_cons_of_ne_nil hne
          rw [hxs, List.map_cons, firstMaxBy]
          dsimp only
          cases hsucc : succ st.idx
          · simp only [Bool.false_eq_true, if_false]
            exact ⟨_, rfl⟩
          · simp only [if_true]
            exact ⟨_, rfl⟩
        · rw [if_neg hp]
          exact ⟨st, rfl⟩
    obtain ⟨st₁, hst₁⟩ := hok
    obtain ⟨r1, r2, r3⟩ := proposedStep_ok_rel hst₁
    have hne₁ : st₁.nodes ≠ [] := by
      intro hc
      rw [← List.length_eq_zero] at hc
      rw [r2] at hc
      rw [List.length_eq_zero] at hc
      exact hne hc
    obtain ⟨st', hst', w1, w2, w3⟩ := ih st₁ hne₁
    refine ⟨st', ?_, forall₂_stepRel_trans r1 w1, by rw [w2, r2], ?_⟩
    · rw [List.foldlM_cons, hst₁]
      exact hst'
    · intro id hh
      exact w3 id (r3 id hh)

lemma proposedLoop_exit (succ : ℕ → Bool) (total : ℕ) (dag₁ : List Task)
    (hnd : (dag₁.map (·.task_id)).Nodup) :
    ∀ (fuel : ℕ) (st : SimState),
      List.Forall₂ StepRel dag₁ st.dag →
      (pendingIds st.dag).length < fuel →
      (∃ st' ek, proposedLoop succ total fuel st = .ok (st', ek) ∧
        (ek = .allDone ∨ ek = .stalled) ∧ st'.nodes.length = st.nodes.length) ∨
      (st.nodes = [] ∧ ∃ e, proposedLoop succ total fuel st = .error e) := by
  intro fuel
  induction fuel with
  | zero =>
    intro st _ h
    omega
  | succ fuel ih =>
    intro st hF hfuel
    by_cases hc : st.completed.length < total
    · cases hready : get_ready_tasks st.dag st.completed with
      | nil =>
        refine Or.inl ⟨st, .stalled, ?_, Or.inr rfl, rfl⟩
        rw [proposedLoop, if_pos hc, hready]
        rfl
      | cons r0 rest =>
        have hstids : st.dag.map (·.task_id) = dag₁.map (·.task_id) :=
          stepRel_map_id hF
        have hndst : (st.dag.map (·.task_id)).Nodup := hstids ▸ hnd
        have hr0mem : r0 ∈ get_ready_tasks st.dag st.completed := by
          rw [hready]; exact List.mem_cons_self _ _
        obtain ⟨t, ht, htid, hpend, hrdy⟩ := mem_get_ready_tasks.mp hr0mem
        have hget : get_task st.dag r0 = some t :=
          htid ▸ get_task_of_mem_nodup hndst ht
        cases hn : st.nodes with
        | nil =>
          refine Or.inr ⟨rfl, "ValueError: max() arg is an empty sequence", ?_⟩
          rw [proposedLoop, if_pos hc, hready]
          simp only [List.isEmpty_cons, Bool.false_eq_true, if_false]
          rw [List.foldlM_cons, proposedStep_err hget hpend hn]
          rfl
        | cons x xs =>
          have hne : st.nodes ≠ [] := by rw [hn]; exact List.cons_ne_nil _ _
          obtain ⟨st₁, hst₁, hfire⟩ := proposedStep_fires hget hpend hne
          obtain ⟨r1, r2, r3⟩ := proposedStep_ok_rel hst₁
          have hne₁ : st₁.nodes ≠ [] := by
            intro hcc
            rw [← List.length_eq_zero] at hcc
            rw [r2] at hcc
            rw [List.length_eq_zero] at hcc
            exact hne hcc
          obtain ⟨stS, hstS, w1, w2, w3⟩ := proposedSweep_ok succ rest st₁ hne₁
          have hcompose : List.Forall₂ StepRel st.dag stS.dag :=
            forall₂_stepRel_trans r1 w1
          have hF' : List.Forall₂ StepRel dag₁ stS.dag :=
            forall₂_stepRel_trans hF hcompose
          have hr0p : r0 ∈ pendingIds st.dag :=
            mem_pendingIds.mpr ⟨t, ht, htid, hpend⟩
          have hr0np : r0 ∉ pendingIds stS.dag := by
            intro hmem
            obtain ⟨u, hu, huid, hupend⟩ := mem_pendingIds.mp hmem
            exact nonpending_mono w1 hfire u hu huid hupend
          have hlen : (pendingIds stS.dag).length < (pendingIds st.dag).length :=
            length_lt_of_proper
              (pendingIds_nodup (by rw [stepRel_map_id hF'] ; exact hnd))
              (pendingIds_subset hcompose) hr0p hr0np
          have hloopeq : proposedLoop succ total (fuel + 1) st
              = proposedLoop succ total fuel stS := by
            rw [proposedLoop, if_pos hc, hready]
            simp only [List.isEmpty_cons, Bool.false_eq_true, if_false]
            rw [List.foldlM_cons, hst₁]
            show (Except.ok st₁ >>= fun b => rest.foldlM (proposedStep succ) b)
                  >>= (fun st' => proposedLoop succ total fuel st') = _
            rw [show (Except.ok st₁ >>= fun b => rest.foldlM (proposedStep succ) b)
                = rest.foldlM (proposedStep succ) st₁ from rfl, hstS]
            rfl
          rcases ih stS hF' (by omega) with
            ⟨st', ek, heq, hek, hlenn⟩ | ⟨hnil, e, herr⟩
          · refine Or.inl ⟨st', ek, ?_, hek, ?_⟩
            · rw [hloopeq]; exact heq
            · rw [hlenn, w2, r2, hn]
          · exfalso
            rw [← List.length_eq_zero] at hnil
            rw [w2, r2, hn] at hnil
            simp at hnil
    · refine Or.inl ⟨st, .allDone, ?_, Or.inl rfl, rfl⟩
      rw [proposedLoop, if_neg hc]


/-! ### Proposed trial: exit characterization -/

lemma simulate_proposed_cases (stream : ℤ → ℕ → Bool) (sim : Simulator) :
    (∃ out st ek, simulate_proposed stream sim = .ok (out, st, ek) ∧
      (ek = .allDone ∨ ek = .stalled)) ∨
    (sim.nodes = [] ∧ ∃ e, simulate_proposed stream sim = .error e) := by
  have hnd₀ : ((reset_all_tasks (mkDagTasks sim.tasks)).map (·.task_id)).Nodup := by
    rw [reset_all_map_id]
    exact mkDagTasks_nodup sim.tasks
  have hfuel : (pendingIds (reset_all_tasks (mkDagTasks sim.tasks))).length
      < 10 * sim.tasks.length + 1 := by
    have h1 := pendingIds_length_le (reset_all_tasks (mkDagTasks sim.tasks))
    have h2 : (reset_all_tasks (mkDagTasks sim.tasks)).length
        = (mkDagTasks sim.tasks).length := by
      rw [reset_all_tasks, List.length_map]
    have h3 := mkDagTasks_length sim.tasks
    omega
  rcases proposedLoop_exit (stream sim.seed) sim.tasks.length
      (reset_all_tasks (mkDagTasks sim.tasks)) hnd₀
      (10 * sim.tasks.length + 1)
      ⟨reset_all_tasks (mkDagTasks sim.tasks), sim.nodes, [], 0, 0, []⟩
      (forall₂_self stepRel_refl _) hfuel with
    ⟨st', ek, heq, hek, -⟩ | ⟨hnil, e, herr⟩
  · left
    rw [simulate_proposed, heq]
    exact ⟨_, st', ek, rfl, hek⟩
  · refine Or.inr ⟨hnil, e, ?_⟩
    rw [simulate_proposed, herr]

lemma simulate_proposed_no_fuelOut (stream : ℤ → ℕ → Bool) (sim : Simulator) :
    ∀ out st, simulate_proposed stream sim ≠ .ok (out, st, .fuelOut) := by
  intro out st hcon
  rcases simulate_proposed_cases stream sim with
    ⟨out', st', ek, heq, hek⟩ | ⟨-, e, herr⟩
  · rw [heq] at hcon
    have h2 := Except.ok.inj hcon
    have hekf : ek = ExitKind.fuelOut := congrArg (fun x => x.2.2) h2
    rcases hek with h | h <;> rw [h] at hekf <;> cases hekf
  · rw [herr] at hcon
    cases hcon

lemma simulate_proposed_ok (stream : ℤ → ℕ → Bool) (sim : Simulator)
    (hne : sim.nodes ≠ []) :
    ∃ out st ek, simulate_proposed stream sim = .ok (out, st, ek) ∧
      (ek = .allDone ∨ ek = .stalled) := by
  rcases simulate_proposed_cases stream sim with h | ⟨hnil, -⟩
  · exact h
  · exact absurd hnil hne


/-! ### Claims about the per-trial loops -/

/-- `C6` refuted as stated: no run of either per-trial loop ever terminates
by exhausting an iteration cap — the source contains no cap at all (the
modelling fuel of 10×|tasks|+1, the claim's own budget, is never consumed),
so cap exhaustion is not a termination path. -/
theorem claim6_counterexample :
    ¬ ∃ (stream : ℤ → ℕ → Bool) (sim : Simulator) (out : ℚ × ℕ × ℕ)
        (st : SimState),
        simulate_baseline stream sim = .ok (out, st, .fuelOut) ∨
        simulate_proposed stream sim = .ok (out, st, .fuelOut) := by
  rintro ⟨stream, sim, out, st, h | h⟩
  · exact simulate_baseline_no_fuelOut stream sim out st h
  · exact simulate_proposed_no_fuelOut stream sim out st h

/-- `C6` amended — for every node set (nonempty, else the run aborts with
the empty-registry error of C9), task set and draw stream, each per-trial
loop terminates, and the only termination paths are full completion
(`allDone`) or a stall (`stalled`); there is no iteration cap in the code —
the loop inherently performs at most one sweep per task. -/
theorem claim6_termination_amended :
    ∀ (stream : ℤ → ℕ → Bool) (sim : Simulator), sim.nodes ≠ [] →
      (∃ out st ek, simulate_baseline stream sim = .ok (out, st, ek) ∧
        (ek = ExitKind.allDone ∨ ek = ExitKind.stalled)) ∧
      (∃ out st ek, simulate_proposed stream sim = .ok (out, st, ek) ∧
        (ek = ExitKind.allDone ∨ ek = ExitKind.stalled)) :=
  fun stream sim hne =>
    ⟨simulate_baseline_ok stream sim hne, simulate_proposed_ok stream sim hne⟩

/-- Closed instance of the amended `C6` on the three-task chain. -/
theorem claim6_witness :
    (∃ out st ek, simulate_baseline (fun _ _ => true) simA = .ok (out, st, ek) ∧
      (ek = ExitKind.allDone ∨ ek = ExitKind.stalled)) ∧
    (∃ out st ek, simulate_proposed (fun _ _ => true) simA = .ok (out, st, ek) ∧
      (ek = ExitKind.allDone ∨ ek = ExitKind.stalled)) :=
  claim6_termination_amended (fun _ _ => true) simA
    (by simp [simA])

/-- `C9` refuted as stated: the cyclic graph `simC9` (1↔2) and the unknown
dependency of `simC9u` are not surfaced as fatal configuration errors
before simulation — both runs proceed and end in an ordinary stall with a
valid result tuple. -/
theorem claim9_counterexample :
    (simulate_baseline (fun _ _ => true) simC9).toOption.map
        (fun r => (r.1, r.2.2)) = some ((0, 0, 2), ExitKind.stalled) ∧
    (simulate_proposed (fun _ _ => true) simC9).toOption.map
        (fun r => (r.1, r.2.2)) = some ((0, 0, 2), ExitKind.stalled) ∧
    (simulate_baseline (fun _ _ => true) simC9u).toOption.map
        (fun r => (r.1, r.2.2)) = some ((0, 0, 1), ExitKind.stalled) := by
  exact ⟨rfl, rfl, rfl⟩

/-- `C9` amended — `Simulator.__init__` performs no validation: with a
nonempty node registry every run (cyclic, unknown-dependency or otherwise)
returns a result and never aborts; an empty node registry is not caught
before simulation either, but surfaces as an exception while scheduling
(baseline `IndexError`) or executing (proposed `ValueError`). -/
theorem claim9_validation_amended :
    (∀ (stream : ℤ → ℕ → Bool) (sim : Simulator), sim.nodes ≠ [] →
      (∃ r, simulate_baseline stream sim = .ok r) ∧
      (∃ r, simulate_proposed stream sim = .ok r)) ∧
    (∃ e, simulate_baseline (fun _ _ => true) simC9b = .error e) ∧
    (∃ e, simulate_proposed (fun _ _ => true) simC9b = .error e) := by
  refine ⟨?_, ⟨"IndexError: list index out of range", rfl⟩,
    ⟨"ValueError: max() arg is an empty sequence", rfl⟩⟩
  intro stream sim hne
  obtain ⟨out, st, ek, heq, -⟩ := simulate_baseline_ok stream sim hne
  obtain ⟨out', st', ek', heq', -⟩ := simulate_proposed_ok stream sim hne
  exact ⟨⟨_, heq⟩, ⟨_, heq'⟩⟩

/-- Closed instance of the amended `C9`. -/
theorem claim9_witness :
    (∃ r, simulate_baseline (fun _ _ => false) simA = .ok r) ∧
    (∃ r, simulate_proposed (fun _ _ => false) simA = .ok r) :=
  claim9_validation_amended.1 (fun _ _ => false) simA
    (by simp [simA])

/-- `C1` refuted as stated: on the one-task configuration `simC1` with a
failing draw, the attempt fails (see the log), `retry_count` stays 0 —
which is ≤ `max_retries` = 2 — and yet the task is left permanently Failed
instead of being reset to Pending for re-selection. -/
theorem claim1_counterexample :
    (simulate_baseline (fun _ _ => false) simC1).toOption.map
        (fun r => (r.2.1.dag.map fun t => (t.status, t.retry_count, t.max_retries),
                   r.2.1.log))
      = some ([(TaskStatus.failed, 0, 2)],
              [{ task_id := 1, node_id := 1, success := false, time := 0 }]) ∧
    (simulate_proposed (fun _ _ => false) simC1).toOption.map
        (fun r => (r.2.1.dag.map fun t => (t.status, t.retry_count, t.max_retries),
                   r.2.1.log))
      = some ([(TaskStatus.failed, 0, 2)],
              [{ task_id := 1, node_id := 1, success := false, time := 0 }]) := by
  exact ⟨rfl, rfl⟩

/-- `C1` amended — on a failed attempt the engine marks the task
permanently Failed at once: neither engine ever touches `retry_count`
(`Task.can_retry`/`Task.increment_retry` are never invoked), a failed
baseline attempt leaves the task Failed, and the ready set only ever
contains Pending tasks, so a Failed task is excluded from future
readiness. -/
theorem claim1_retry_amended :
    (∀ (dag : List Task) (completed : List ℤ) (id : ℤ),
      id ∈ get_ready_tasks dag completed →
      ∃ t ∈ dag, t.task_id = id ∧ t.status = .pending) ∧
    (∀ (sch : List (ℤ × ℤ)) (succ : ℕ → Bool) (st : SimState) (tid : ℤ),
      (baselineStep sch succ st tid).dag.map (·.retry_count)
        = st.dag.map (·.retry_count)) ∧
    (∀ (succ : ℕ → Bool) (st : SimState) (tid : ℤ) (st' : SimState),
      proposedStep succ st tid = .ok st' →
      st'.dag.map (·.retry_count) = st.dag.map (·.retry_count)) ∧
    (∀ (sch : List (ℤ × ℤ)) (succ : ℕ → Bool) (st : SimState) (tid : ℤ)
       (task : Task) (v : ℤ) (node : FogNode),
      get_task st.dag tid = some task → task.status = .pending →
      scheduleGet sch tid = some v →
      st.nodes.find? (fun n => n.node_id == v) = some node →
      succ st.idx = false →
      ∀ u ∈ (baselineStep sch succ st tid).dag, u.task_id = tid →
        u.status = .failed) := by
  refine ⟨?_, ?_, ?_, ?_⟩
  · intro dag completed id hid
    obtain ⟨t, ht, htid, hpend, -⟩ := mem_get_ready_tasks.mp hid
    exact ⟨t, ht, htid, hpend⟩
  · intro sch succ st tid
    exact forall₂_map_eq (fun _ _ h => h.2.2.2.2.1)
      (baselineStep_rel sch succ st tid).1
  · intro succ st tid st' h
    exact forall₂_map_eq (fun _ _ h => h.2.2.2.2.1) (proposedStep_ok_rel h).1
  · intro sch succ st tid task v node hg hp hs hn hsucc u hu hid
    rw [baselineStep, hg] at hu
    dsimp only at hu
    rw [if_pos (by simp [hp])] at hu
    rw [hs] at hu
    dsimp only at hu
    rw [hn] at hu
    dsimp only at hu
    rw [hsucc] at hu
    simp only [Bool.false_eq_true, if_false] at hu
    obtain ⟨t, -, rfl⟩ := mem_dagUpdate_at hu hid
    rfl

/-- Closed instance of the amended `C1`: the concrete failed baseline
attempt on `stC2` marks task 1 Failed. -/
theorem claim1_witness :
    ∀ u ∈ (baselineStep [(1, 1)] (fun _ => false) stC2 1).dag,
      u.task_id = 1 → u.status = .failed :=
  claim1_retry_amended.2.2.2 [(1, 1)] (fun _ => false) stC2 1
    (Task.reset (mkTask 1 2)) 1 nodeEx rfl rfl rfl rfl rfl

end VFC
